import Mathlib

/-!
Verification of the Sandstorm `spk` tool (src/sandstorm/spk.c++).

The development shallowly embeds the program's pure core:

* the base32 identifier codec (`base32Encode`, `Base32Decoder`);
* the unpack verification pipeline of `doUnpack` (magic check, signature
  parsing, signature opening, content-hash comparison), with the external
  collaborators (libsodium, xz, Cap'n Proto stream parsing) abstracted as
  explicit function parameters;
* the archive materializer `unpackDir` over an explicit filesystem state;
* the directory archiver `packDirectory`/`packFile`.

Machine integers (`uint`) are modelled as `Nat` with explicit `% 2 ^ 32`
at every update, byte stores truncate with `&&& 0xFF`, and the C bit
operators `<<`, `>>`, `|`, `&` are the corresponding `Nat` operators.
-/

namespace Sandstorm

/-! ## Base32 codec (spk.c++ lines 58-169) -/

/-- `constexpr char BASE32_ENCODE_TABLE[] = "0123456789acdefghjkmnpqrstuvwxyz";` -/
def BASE32_ENCODE_TABLE : List Char := "0123456789acdefghjkmnpqrstuvwxyz".toList

/-- The loop of `base32Encode` (spk.c++ 69-86).  State: the not yet consumed
bytes (`data[next..]`), the bit buffer (a C `uint`, hence the `% 2 ^ 32`), and
`bitsLeft`.  Each step mirrors one iteration of
`while (bitsLeft > 0 || next < data.size())`: if fewer than 5 bits are
buffered, either the next byte is shifted in (`buffer <<= 8; buffer |= b`)
or, with no input left, the buffer is zero-padded to 5 bits; then one output
symbol `0x1F & (buffer >> (bitsLeft - 5))` is produced.  A produced symbol is
the table index; the caller maps it through `BASE32_ENCODE_TABLE`. -/
def encodeLoop : List Nat → Nat → Nat → List Nat
  | b :: rest, buffer, bitsLeft =>
    if bitsLeft < 5 then
      -- refill: buffer <<= 8; buffer |= data[next++] & 0xFF; bitsLeft += 8;
      -- then emit with the refilled buffer and bitsLeft
      (0x1F &&& ((((buffer <<< 8) ||| (b &&& 0xFF)) % 2 ^ 32) >>> (bitsLeft + 3))) ::
        encodeLoop rest (((buffer <<< 8) ||| (b &&& 0xFF)) % 2 ^ 32) (bitsLeft + 3)
    else
      (0x1F &&& (buffer >>> (bitsLeft - 5))) :: encodeLoop (b :: rest) buffer (bitsLeft - 5)
  | [], buffer, bitsLeft =>
    if bitsLeft = 0 then []
    else if bitsLeft < 5 then
      -- no more input; pad with zeros: buffer <<= pad; bitsLeft += pad; then emit
      (0x1F &&& ((buffer <<< (5 - bitsLeft)) % 2 ^ 32)) ::
        encodeLoop [] ((buffer <<< (5 - bitsLeft)) % 2 ^ 32) 0
    else
      (0x1F &&& (buffer >>> (bitsLeft - 5))) :: encodeLoop [] buffer (bitsLeft - 5)
  termination_by data _ bitsLeft => 8 * data.length + bitsLeft
  decreasing_by all_goals (simp_wf <;> omega)

/-- `kj::String base32Encode(kj::ArrayPtr<const byte> data)` (spk.c++ 60-90).
If the input is empty the loop body never runs; otherwise the loop starts
with `buffer = data[0]`, `next = 1`, `bitsLeft = 8`. -/
def base32Encode (data : List Nat) : List Char :=
  match data with
  | [] => []
  | b :: rest => (encodeLoop rest b 8).map (fun i => BASE32_ENCODE_TABLE.getD i ' ')

/-- Point update of a decode table, modelling `decodeTable[c] = v`. -/
def tableSet (t : Nat → Nat) (c v : Nat) : Nat → Nat :=
  fun x => if x = c then v else t x

/-- The first loops of the `Base32Decoder` constructor (spk.c++ 94-107):
all 256 entries start at 255, then each alphabet character (and, for
letters, its upper-case form) maps to its table index. -/
def decodeTableBase : Nat → Nat :=
  (List.range 32).foldl
    (fun t i =>
      let c := (BASE32_ENCODE_TABLE.getD i ' ').toNat
      let t1 := tableSet t c i
      if 'a'.toNat ≤ c ∧ c ≤ 'z'.toNat then tableSet t1 (c - 'a'.toNat + 'A'.toNat) i
      else t1)
    (fun _ => 255)

/-- The legacy-character folding of the constructor (spk.c++ 111-114):
`o`/`O` ↦ 0, `i`/`I` ↦ 1, `l`/`L` ↦ 1, `b`/`B` ↦ 8. -/
def decodeTable : Nat → Nat :=
  tableSet (tableSet (tableSet (tableSet (tableSet (tableSet (tableSet (tableSet
    decodeTableBase
    'o'.toNat 0) 'O'.toNat 0) 'i'.toNat 1) 'I'.toNat 1) 'l'.toNat 1) 'L'.toNat 1)
    'b'.toNat 8) 'B'.toNat 8

/-- The two failure conditions of `Base32Decoder::decode`:
`KJ_ASSERT(decoded <= 32, "Invalid base32.")` and
`KJ_REQUIRE(buffer == 0, "Base32 decode failed: extra bits at end.")`. -/
inductive Base32DecodeError where
  | invalidEncoding
  | trailingBits
  deriving DecidableEq

/-- The loop of `Base32Decoder::decode` (spk.c++ 144-156).  For each input
character: look it up (the C code indexes with `(byte)c`, hence `% 256`),
fail unless `decoded <= 32`, accumulate 5 bits
(`buffer <<= 5; buffer |= decoded`), and whenever 8 bits are available emit
one output byte `result[count++] = buffer >> bitsLeft` (a byte store, hence
`&&& 0xFF`).  Returns the emitted bytes together with the final `buffer`
and `bitsLeft`. -/
def decodeCore : List Char → Nat → Nat → Except Base32DecodeError (List Nat × Nat × Nat)
  | [], buffer, bitsLeft => .ok ([], buffer, bitsLeft)
  | c :: rest, buffer, bitsLeft =>
    if decodeTable (c.toNat % 256) ≤ 32 then
      if 8 ≤ bitsLeft + 5 then
        match decodeCore rest (((buffer <<< 5) ||| decodeTable (c.toNat % 256)) % 2 ^ 32)
            (bitsLeft + 5 - 8) with
        | .ok (out, bufF, blF) =>
          .ok ((0xFF &&& ((((buffer <<< 5) ||| decodeTable (c.toNat % 256)) % 2 ^ 32) >>>
            (bitsLeft + 5 - 8))) :: out, bufF, blF)
        | .error e => .error e
      else
        decodeCore rest (((buffer <<< 5) ||| decodeTable (c.toNat % 256)) % 2 ^ 32) (bitsLeft + 5)
    else .error .invalidEncoding

/-- `kj::Array<byte> Base32Decoder::decode(kj::StringPtr encoded)`
(spk.c++ 137-162): run the loop from an empty buffer, then require the
leftover bits `buffer & ((1 << bitsLeft) - 1)` to be zero. -/
def decode (encoded : List Char) : Except Base32DecodeError (List Nat) :=
  match decodeCore encoded 0 0 with
  | .ok (out, buffer, bitsLeft) =>
    if buffer &&& (2 ^ bitsLeft - 1) = 0 then .ok out else .error .trailingBits
  | .error e => .error e

/-! ## Big-endian digit views (specification vocabulary)

`beVal base l` is the number whose base-`base` big-endian digits are `l`;
`beDigits base k v` are the `k` base-`base` big-endian digits of `v`.
These express "5 bits per output character, most-significant-bits first". -/

def beVal (base : Nat) : List Nat → Nat
  | [] => 0
  | d :: rest => d * base ^ rest.length + beVal base rest

def beDigits (base : Nat) : Nat → Nat → List Nat
  | 0, _ => []
  | k + 1, v => v / base ^ k :: beDigits base k (v % base ^ k)

/-- Modelled from the spec: the Identifier Codec "encodes … 5 bits per output
character, most-significant-bits first, zero-padded on the final partial
group. Output length = `ceil(bits/5)`."  The bit stream of `data` (bytes
most-significant-bit first) is `beVal 256 data` padded at the right with
`(5 - 8n % 5) % 5` zero bits, and the output characters are its
`⌈8n/5⌉` base-32 digits mapped through the alphabet. -/
def base32EncodeSpec (data : List Nat) : List Char :=
  (beDigits 32 ((8 * data.length + 4) / 5)
      (beVal 256 data * 2 ^ ((5 - 8 * data.length % 5) % 5))).map
    (fun i => BASE32_ENCODE_TABLE.getD i ' ')

/-- Loop invariant shape for `encodeLoop`: with `bitsLeft` buffered bits and
`data` still unread, the remaining output is the base-32 digit string of the
pending bit stream (low `bitsLeft` bits of `buffer`, then `data`), zero-padded
to a whole number of 5-bit groups. -/
def encodeInv (data : List Nat) (buffer bitsLeft : Nat) : List Nat :=
  beDigits 32 ((8 * data.length + bitsLeft + 4) / 5)
    ((buffer % 2 ^ bitsLeft * 2 ^ (8 * data.length) + beVal 256 data) *
      2 ^ ((5 - (8 * data.length + bitsLeft) % 5) % 5))

/-- Loop invariant shape for `decodeCore`: with `bitsLeft` buffered bits and
5-bit values `vs` still unread, the bytes emitted are the base-256 digits of
the accumulated bit stream truncated to whole bytes. -/
def decodeOut (vs : List Nat) (buffer bitsLeft : Nat) : List Nat :=
  beDigits 256 ((bitsLeft + 5 * vs.length) / 8)
    ((buffer % 2 ^ bitsLeft * 32 ^ vs.length + beVal 32 vs) /
      2 ^ ((bitsLeft + 5 * vs.length) % 8))

/-! ## Unpack verification pipeline (spk.c++ 641-741)

The external collaborators of `doUnpack` are abstracted: libsodium's
`crypto_sign_open`/`crypto_hash` become an explicit `CryptoModel`, the
`xz -dc` child process becomes a function on byte lists, and Cap'n Proto's
`InputStreamMessageReader` for the `Signature` record becomes a parser
returning the record fields and the remaining stream bytes. -/

def crypto_sign_PUBLICKEYBYTES : Nat := 32
def crypto_sign_BYTES : Nat := 64
def crypto_hash_BYTES : Nat := 64

/-- Abstraction of the libsodium primitives used by `doUnpack`:
`signOpen sig pk` recovers the signed message (here: the content hash) or
fails, and `hash` is `crypto_hash` (SHA-512). -/
structure CryptoModel where
  signOpen : List Nat → List Nat → Option (List Nat)
  hash : List Nat → List Nat

/-- The user-facing validation failures of `doUnpack`/`unpackDir`, under the
spec's names.  `malformedSignature` covers "Invalid public key.",
"Invalid signature format." and "Wrong signature size."; `invalidSignature`
is "Invalid signature."; `contentMismatch` is "Signature didn't match
package contents."; `badMagic` is "bad magic number";
`invalidName`/`duplicateName`/`alreadyExists`/`unknownFileType` are the
`unpackDir` failures; `prematureEof` models the `kj` exception thrown when
the input file is shorter than the magic number. -/
inductive UnpackError where
  | badMagic
  | malformedSignature
  | invalidSignature
  | contentMismatch
  | invalidName
  | duplicateName
  | alreadyExists
  | unknownFileType
  | prematureEof
  deriving DecidableEq

/-- Observable side effects of the verification phase; `spawnedDecompressor`
marks the creation of the `xz -dc` child process (spk.c++ 674). -/
inductive UnpackEvent where
  | spawnedDecompressor
  deriving DecidableEq

/-- The verification phase of `doUnpack` (spk.c++ 655-725), returning the
events performed together with the verified archive bytes or the first
failure.  In source order: read the fixed-size magic prefix (throws on short
read), compare it byte for byte, spawn the decompressor over the remaining
bytes, parse the `Signature` record, check the key and signature sizes,
`crypto_sign_open` the signature, check the recovered hash length, then
hash the drained archive bytes and compare with `memcmp`.  `magic` is the
`MAGIC_NUMBER` constant from `package.capnp` (not under src/); per the spec
it is just "a fixed byte constant written uncompressed", so it is an
arbitrary parameter here. -/
def doUnpack (magic : List Nat) (C : CryptoModel)
    (decompress : List Nat → List Nat)
    (parseSignature : List Nat → Option ((List Nat × List Nat) × List Nat))
    (file : List Nat) : List UnpackEvent × Except UnpackError (List Nat) :=
  if file.length < magic.length then ([], .error .prematureEof)
  else if file.take magic.length ≠ magic then ([], .error .badMagic)
  else
    let stream := decompress (file.drop magic.length)
    ([.spawnedDecompressor],
      match parseSignature stream with
      | none => .error .malformedSignature
      | some ((publicKey, signature), archiveBytes) =>
        if publicKey.length ≠ crypto_sign_PUBLICKEYBYTES then .error .malformedSignature
        else if signature.length ≠ crypto_hash_BYTES + crypto_sign_BYTES then
          .error .malformedSignature
        else
          match C.signOpen signature publicKey with
          | none => .error .invalidSignature
          | some expectedHash =>
            if expectedHash.length ≠ crypto_hash_BYTES then .error .malformedSignature
            else if C.hash archiveBytes ≠ expectedHash then .error .contentMismatch
            else .ok archiveBytes)

/-! ## Archive model and materializer (spk.c++ 743-788) -/

/-- One entry of `spk::Archive.File`: a name plus the union over
regular/executable content, a symlink target, a nested directory, or an
unknown union tag (the `default:` branch of `unpackDir`'s switch). -/
inductive File where
  | regular (name : String) (content : List Nat)
  | executable (name : String) (content : List Nat)
  | symlink (name : String) (target : String)
  | directory (name : String) (entries : List File)
  | unknown (name : String)

def File.name : File → String
  | .regular n _ => n
  | .executable n _ => n
  | .symlink n _ => n
  | .directory n _ => n
  | .unknown n => n

/-- The name validation of `unpackDir` (spk.c++ 748-750):
`name.size() != 0 && name != "." && name != ".." &&
name.findFirst('/') == nullptr && name.findFirst('\0') == nullptr`. -/
def validName (name : String) : Bool :=
  name.length != 0 && name != "." && name != ".." &&
  !(name.toList.contains '/') && !(name.toList.contains (Char.ofNat 0))

/-- A materialized filesystem object: a regular file with its content and
the `mode` passed to `open(2)` (before the process umask), a symlink, or a
directory. -/
inductive FSNode where
  | file (content : List Nat) (mode : Nat)
  | symlink (target : String)
  | dir
  deriving DecidableEq

/-- The filesystem state visible to `unpackDir`: bindings from paths
(segment lists) to nodes, most recently created first.  `access(2)` is
`fsExists`; every write prepends a binding and never removes one. -/
abbrev FS := List (List String × FSNode)

def fsExists (fs : FS) (path : List String) : Bool :=
  fs.any (fun b => b.1 = path)

/-- `void unpackDir(capnp::List<spk::Archive::File>::Reader files,
kj::StringPtr dirname)` (spk.c++ 743-788), with the per-level
`std::set<kj::StringPtr> seen` threaded explicitly and the real filesystem
replaced by the explicit `FS` state.  Per entry, in source order: validate
the name (`invalidName`), check `seen.insert(name).second`
(`duplicateName`), check `access(path, F_OK) != 0` (`alreadyExists`), then
switch on the union: regular files are created with mode `0666`,
executables with `0777` (both `O_WRONLY | O_CREAT | O_EXCL`), symlinks via
`symlink(2)`, directories via `mkdir(path, 0777)` followed by recursion
with a fresh `seen` set.  A `kj` exception aborts the whole unpack, leaving
the filesystem state as already written. -/
def unpackDir : List File → List String → List String → FS → FS × Option UnpackError
  | [], _, _, fs => (fs, none)
  | f :: rest, seen, dirname, fs =>
    if ¬ validName f.name then (fs, some .invalidName)
    else if f.name ∈ seen then (fs, some .duplicateName)
    else if fsExists fs (dirname ++ [f.name]) then (fs, some .alreadyExists)
    else
      match f with
      | .regular _ content =>
        unpackDir rest (f.name :: seen) dirname
          ((dirname ++ [f.name], .file content 0o666) :: fs)
      | .executable _ content =>
        unpackDir rest (f.name :: seen) dirname
          ((dirname ++ [f.name], .file content 0o777) :: fs)
      | .symlink _ target =>
        unpackDir rest (f.name :: seen) dirname
          ((dirname ++ [f.name], .symlink target) :: fs)
      | .directory _ entries =>
        match unpackDir entries [] (dirname ++ [f.name])
            ((dirname ++ [f.name], .dir) :: fs) with
        | (fs2, some e) => (fs2, some e)
        | (fs2, none) => unpackDir rest (f.name :: seen) dirname fs2
      | .unknown _ => (fs, some .unknownFileType)
  termination_by files _ _ _ => sizeOf files
  decreasing_by all_goals (simp_wf <;> omega)

/-! ## Directory tree archiver (spk.c++ 465-538) -/

/-- A source directory entry as `packFile` classifies it with `lstat`:
a regular file with its content and owner-execute bit (`S_IXUSR`), a
symlink with its target, or a subdirectory.  (Device/socket/fifo nodes are
outside the round-trip claim's scope.) -/
inductive SrcNode where
  | regular (content : List Nat) (exec : Bool)
  | symlink (target : String)
  | directory (entries : List (String × SrcNode))

mutual

/-- `void packFile(spk::Archive::File::Builder file, ...)` (spk.c++
465-498): regular files become `Regular` or `Executable` depending on the
owner-execute bit, symlinks keep their target, directories recurse. -/
def packFile (name : String) : SrcNode → File
  | .regular content exec =>
    if exec then File.executable name content else File.regular name content
  | .symlink target => File.symlink name target
  | .directory entries => File.directory name (packDirectory entries)

/-- `packDirectory` (spk.c++ 500-538): one `Archive.File` per directory
entry, in the order the filesystem enumerated them (`"."`/`".."` already
excluded from the model's entry list). -/
def packDirectory : List (String × SrcNode) → List File
  | [] => []
  | e :: rest => packFile e.1 e.2 :: packDirectory rest

end

mutual

/-- The naming invariants of the Archive model, checked on the source tree:
at every level each name is valid (`validName`) and unique among its
siblings. -/
def validTree : List (String × SrcNode) → Bool
  | [] => true
  | (name, n) :: rest =>
    validName name && !((rest.map Prod.fst).contains name) && validNode n && validTree rest

def validNode : SrcNode → Bool
  | .regular _ _ => true
  | .symlink _ => true
  | .directory entries => validTree entries

end

/-- The filesystem bindings that materializing a source tree under `path`
must produce, in materialization order: regular files with their content
and mode (`0777` for executables, `0666` otherwise), symlinks with their
targets, directories followed by their recursively materialized entries. -/
def treeBindings : List String → List (String × SrcNode) → FS
  | _, [] => []
  | path, (name, .regular c e) :: rest =>
    (path ++ [name], .file c (if e then 0o777 else 0o666)) :: treeBindings path rest
  | path, (name, .symlink t) :: rest =>
    (path ++ [name], .symlink t) :: treeBindings path rest
  | path, (name, .directory sub) :: rest =>
    (path ++ [name], .dir) :: (treeBindings (path ++ [name]) sub ++ treeBindings path rest)

/-- Modelled from the spec: the characters the decoder accepts — the
alphabet in both cases plus the folded legacy characters
`o`/`O`, `i`/`I`, `l`/`L`, `b`/`B`. -/
def base32AcceptedChars : List Char :=
  "0123456789acdefghjkmnpqrstuvwxyzACDEFGHJKMNPQRSTUVWXYZoOiIlLbB".toList

end Sandstorm

deriving instance DecidableEq for Except

namespace Sandstorm

/-! ## Arithmetic toolbox for the codec proofs -/

/-- Extracting `j` bits at offset `k`: `(2^j - 1) & (x >> k)` reads the bit
field `[k, k+j)` of `x`. -/
theorem mask_shiftRight_eq (x k j : Nat) :
    (2 ^ j - 1) &&& (x >>> k) = x % 2 ^ (k + j) / 2 ^ k := by
  rw [Nat.and_comm, Nat.and_pow_two_sub_one_eq_mod, Nat.shiftRight_eq_div_pow,
    pow_add, ← Nat.mod_mul_right_div_self]

/-- `(a << k) | b` with `b < 2^k` is plain addition. -/
theorem shiftLeft_or_eq (a b k : Nat) (hb : b < 2 ^ k) :
    (a <<< k) ||| b = a * 2 ^ k + b := by
  rw [Nat.shiftLeft_eq, Nat.mul_comm, ← Nat.mul_add_lt_is_or hb, Nat.mul_comm]

/-- The 32-bit wrap of the C `uint` buffer is invisible at width `m ≤ 32`. -/
theorem mod_mod_32 (x m : Nat) (h : m ≤ 32) : x % 2 ^ 32 % 2 ^ m = x % 2 ^ m :=
  Nat.mod_mod_of_dvd x (pow_dvd_pow 2 h)

/-- Shifting `b` into the low `k` bits only sees the low `a` bits of `x`
at width `a + k`. -/
theorem mod_shift_in (x b a k : Nat) (hb : b < 2 ^ k) :
    (x * 2 ^ k + b) % 2 ^ (a + k) = x % 2 ^ a * 2 ^ k + b := by
  have h1 : x % 2 ^ a * 2 ^ k + b ≡ x * 2 ^ k + b [MOD 2 ^ a * 2 ^ k] :=
    ((Nat.mod_modEq x (2 ^ a)).mul_right' _).add_right b
  have hlt : x % 2 ^ a * 2 ^ k + b < 2 ^ a * 2 ^ k := by
    have hx : x % 2 ^ a < 2 ^ a := Nat.mod_lt _ (Nat.pos_pow_of_pos a (by norm_num))
    calc x % 2 ^ a * 2 ^ k + b < x % 2 ^ a * 2 ^ k + 2 ^ k := by omega
      _ = (x % 2 ^ a + 1) * 2 ^ k := by ring
      _ ≤ 2 ^ a * 2 ^ k := Nat.mul_le_mul_right _ (by omega)
  rw [pow_add, ← h1, Nat.mod_eq_of_lt hlt]

/-! ## Big-endian digit lemmas -/

theorem beDigits_length (base k v : Nat) : (beDigits base k v).length = k := by
  induction k generalizing v with
  | zero => rfl
  | succ k ih => simp [beDigits, ih]

theorem beVal_lt (base : Nat) (l : List Nat) (h : ∀ d ∈ l, d < base) :
    beVal base l < base ^ l.length := by
  induction l with
  | nil => simp [beVal]
  | cons d rest ih =>
    have hd : d < base := h d (by simp)
    have hr : beVal base rest < base ^ rest.length := ih (fun x hx => h x (by simp [hx]))
    calc d * base ^ rest.length + beVal base rest
        < d * base ^ rest.length + base ^ rest.length := by omega
      _ = (d + 1) * base ^ rest.length := by ring
      _ ≤ base * base ^ rest.length := Nat.mul_le_mul_right _ (by omega)
      _ = base ^ (d :: rest).length := by rw [List.length_cons, pow_succ, Nat.mul_comm]

theorem beDigits_split (base k e r : Nat) (hr : r < base ^ k) :
    beDigits base (k + 1) (e * base ^ k + r) = e :: beDigits base k r := by
  have hpos : 0 < base ^ k := Nat.pos_of_ne_zero (by omega)
  have hdiv : (e * base ^ k + r) / base ^ k = e := by
    rw [Nat.add_comm, Nat.add_mul_div_right _ _ hpos, Nat.div_eq_of_lt hr, Nat.zero_add]
  have hmod : (e * base ^ k + r) % base ^ k = r := by
    rw [Nat.add_comm, Nat.add_mul_mod_self_right, Nat.mod_eq_of_lt hr]
  simp [beDigits, hdiv, hmod]

theorem beDigits_beVal (base : Nat) (l : List Nat) (h : ∀ d ∈ l, d < base) :
    beDigits base l.length (beVal base l) = l := by
  induction l with
  | nil => rfl
  | cons d rest ih =>
    have hr : beVal base rest < base ^ rest.length :=
      beVal_lt base rest (fun x hx => h x (by simp [hx]))
    rw [List.length_cons, beVal, beDigits_split base _ _ _ hr,
      ih (fun x hx => h x (by simp [hx]))]

theorem beVal_beDigits (base k v : Nat) (hv : v < base ^ k) :
    beVal base (beDigits base k v) = v := by
  induction k generalizing v with
  | zero =>
    have hv0 : v = 0 := by simpa using hv
    simp [beDigits, beVal, hv0]
  | succ k ih =>
    have hpos : 0 < base ^ k := by
      rcases Nat.eq_zero_or_pos base with h0 | h0
      · subst h0; simp at hv
      · exact Nat.pos_pow_of_pos k h0
    rw [beDigits, beVal, beDigits_length,
      ih (v % base ^ k) (Nat.mod_lt _ hpos), Nat.div_add_mod']

theorem beDigits_digit_lt (base k v : Nat) (hv : v < base ^ k) :
    ∀ d ∈ beDigits base k v, d < base := by
  induction k generalizing v with
  | zero => simp [beDigits]
  | succ k ih =>
    intro d hd
    have hpos : 0 < base ^ k := by
      rcases Nat.eq_zero_or_pos base with h0 | h0
      · subst h0; simp at hv
      · exact Nat.pos_pow_of_pos k h0
    rw [beDigits] at hd
    rcases List.mem_cons.mp hd with h | h
    · subst h
      have : v < base * base ^ k := by rw [← pow_succ']; exact hv
      exact Nat.div_lt_of_lt_mul (by rw [Nat.mul_comm] at this; exact this)
    · exact ih (v % base ^ k) (Nat.mod_lt _ hpos) d h

/-! ## Correctness of the encode loop -/

theorem byte_pow_eq (L : Nat) : (256 : Nat) ^ L = 2 ^ (8 * L) := by
  rw [show (256 : Nat) = 2 ^ 8 from rfl, ← pow_mul]

theorem beVal_bytes_lt (data : List Nat) (hd : ∀ b ∈ data, b < 256) :
    beVal 256 data < 2 ^ (8 * data.length) := by
  have := beVal_lt 256 data hd
  rwa [byte_pow_eq] at this

/-- Peeling off one output symbol: the base-32 digit string of a pending
stream of `m + 5` buffered bits plus `data` starts with the top five
buffered bits. -/
theorem encodeInv_step (data : List Nat) (hd : ∀ b ∈ data, b < 256)
    (buffer m : Nat) :
    encodeInv data buffer (m + 5) = buffer % 2 ^ (m + 5) / 2 ^ m :: encodeInv data buffer m := by
  set L := data.length with hL
  set x := buffer % 2 ^ (m + 5) with hx
  have hxlt : x < 2 ^ (m + 5) := Nat.mod_lt _ (Nat.pos_pow_of_pos _ (by norm_num))
  have hbv : beVal 256 data < 2 ^ (8 * L) := beVal_bytes_lt data hd
  set T := 8 * L + m with hT
  set k := (T + 4) / 5 with hk
  set pad := (5 - T % 5) % 5 with hpad
  have hk1 : (8 * L + (m + 5) + 4) / 5 = k + 1 := by omega
  have hpad5 : (5 - (8 * L + (m + 5)) % 5) % 5 = pad := by omega
  have h5k : m + 8 * L + pad = 5 * k := by omega
  have hxm : x % 2 ^ m = buffer % 2 ^ m :=
    Nat.mod_mod_of_dvd buffer (pow_dvd_pow 2 (by omega))
  -- residual value and its bound
  have hRlt : (x % 2 ^ m * 2 ^ (8 * L) + beVal 256 data) * 2 ^ pad < 32 ^ k := by
    have h1 : x % 2 ^ m * 2 ^ (8 * L) + beVal 256 data < 2 ^ (m + 8 * L) := by
      have hxm' : x % 2 ^ m < 2 ^ m := Nat.mod_lt _ (Nat.pos_pow_of_pos _ (by norm_num))
      calc x % 2 ^ m * 2 ^ (8 * L) + beVal 256 data
          < x % 2 ^ m * 2 ^ (8 * L) + 2 ^ (8 * L) := by omega
        _ = (x % 2 ^ m + 1) * 2 ^ (8 * L) := by ring
        _ ≤ 2 ^ m * 2 ^ (8 * L) := Nat.mul_le_mul_right _ (by omega)
        _ = 2 ^ (m + 8 * L) := by rw [← pow_add]
    calc (x % 2 ^ m * 2 ^ (8 * L) + beVal 256 data) * 2 ^ pad
        < 2 ^ (m + 8 * L) * 2 ^ pad :=
          mul_lt_mul_of_pos_right h1 (Nat.pos_pow_of_pos _ (by norm_num))
      _ = 2 ^ (m + 8 * L + pad) := by rw [← pow_add]
      _ = 32 ^ k := by rw [h5k, show (32 : Nat) = 2 ^ 5 from rfl, ← pow_mul]
  -- value decomposition
  have hval : (x * 2 ^ (8 * L) + beVal 256 data) * 2 ^ pad =
      x / 2 ^ m * 32 ^ k + (x % 2 ^ m * 2 ^ (8 * L) + beVal 256 data) * 2 ^ pad := by
    have h32k : (32 : Nat) ^ k = 2 ^ m * 2 ^ (8 * L) * 2 ^ pad := by
      rw [← pow_add, ← pow_add, h5k, show (32 : Nat) = 2 ^ 5 from rfl, ← pow_mul]
    conv_lhs => rw [← Nat.div_add_mod' x (2 ^ m)]
    rw [h32k]; ring
  rw [encodeInv, encodeInv, ← hL, ← hx, hk1, hpad5, ← hT, ← hk, ← hpad, hval,
    beDigits_split 32 k _ _ hRlt, hxm]

/-- The loop of `base32Encode` computes the zero-padded base-32 digits of
its pending bit stream. -/
theorem encodeLoop_spec (N : Nat) :
    ∀ data buffer bitsLeft, 8 * data.length + bitsLeft ≤ N →
    (∀ b ∈ data, b < 256) → bitsLeft ≤ 12 →
    encodeLoop data buffer bitsLeft = encodeInv data buffer bitsLeft := by
  induction N with
  | zero =>
    intro data buffer bitsLeft hN hd hbl
    match data with
    | [] =>
      have h0 : bitsLeft = 0 := by simpa using hN
      subst h0
      rw [encodeLoop]
      simp [encodeInv, beDigits]
    | b :: rest => simp only [List.length_cons] at hN; omega
  | succ N ih =>
    intro data buffer bitsLeft hN hd hbl
    match data with
    | [] =>
      rcases Nat.eq_zero_or_pos bitsLeft with h0 | h0
      · subst h0
        rw [encodeLoop]
        simp [encodeInv, beDigits]
      · by_cases h5 : bitsLeft < 5
        · -- pad with zeros, emit the final symbol, stop
          rw [encodeLoop]
          simp only [if_neg (by omega : ¬ bitsLeft = 0), if_pos h5]
          have htail : encodeLoop [] ((buffer <<< (5 - bitsLeft)) % 2 ^ 32) 0 = [] := by
            rw [encodeLoop]; simp
          have hmask : (0x1F : Nat) &&& (buffer <<< (5 - bitsLeft)) % 2 ^ 32 =
              (buffer <<< (5 - bitsLeft)) % 2 ^ 32 % 2 ^ 5 := by
            rw [Nat.and_comm, show (0x1F : Nat) = 2 ^ 5 - 1 from rfl,
              Nat.and_pow_two_sub_one_eq_mod]
          have hshift : (buffer <<< (5 - bitsLeft)) % 2 ^ 32 % 2 ^ 5 =
              buffer % 2 ^ bitsLeft * 2 ^ (5 - bitsLeft) := by
            have h1 := mod_shift_in buffer 0 bitsLeft (5 - bitsLeft)
              (Nat.pos_pow_of_pos _ (by norm_num))
            rw [Nat.add_zero, Nat.add_zero,
              show bitsLeft + (5 - bitsLeft) = 5 by omega] at h1
            rw [mod_mod_32 _ _ (by norm_num), Nat.shiftLeft_eq]
            exact h1
          rw [htail, hmask, hshift]
          simp only [encodeInv, List.length_nil, Nat.mul_zero, Nat.zero_add, beVal,
            pow_zero, Nat.mul_one, Nat.add_zero]
          rw [show (bitsLeft + 4) / 5 = 1 by omega,
            show (5 - bitsLeft % 5) % 5 = 5 - bitsLeft by omega,
            beDigits, beDigits]
          simp
        · -- emit one symbol from the buffer
          obtain ⟨m, rfl⟩ : ∃ m, bitsLeft = m + 5 := ⟨bitsLeft - 5, by omega⟩
          rw [encodeLoop]
          simp only [if_neg (by omega : ¬ m + 5 = 0), if_neg (by omega : ¬ m + 5 < 5),
            Nat.add_sub_cancel]
          have hN' : 8 * ([] : List Nat).length + m ≤ N := by
            simp only [List.length_nil] at hN ⊢; omega
          rw [ih [] buffer m hN' hd (by omega),
            show (0x1F : Nat) = 2 ^ 5 - 1 from rfl, mask_shiftRight_eq buffer m 5,
            encodeInv_step [] hd buffer m]
    | b :: rest =>
      by_cases h5 : bitsLeft < 5
      · -- refill from the next byte, emit one symbol
        rw [encodeLoop]
        simp only [if_pos h5]
        have hb : b < 256 := hd b (by simp)
        have hbyte : b &&& 0xFF = b := by
          rw [show (0xFF : Nat) = 2 ^ 8 - 1 from rfl, Nat.and_pow_two_sub_one_eq_mod,
            Nat.mod_eq_of_lt hb]
        have hor : (buffer <<< 8) ||| (b &&& 0xFF) = buffer * 2 ^ 8 + b := by
          rw [hbyte]; exact shiftLeft_or_eq buffer b 8 hb
        have hU : ((buffer <<< 8) ||| (b &&& 0xFF)) % 2 ^ 32 % 2 ^ (bitsLeft + 8) =
            buffer % 2 ^ bitsLeft * 2 ^ 8 + b := by
          rw [hor, mod_mod_32 _ _ (by omega), mod_shift_in buffer b bitsLeft 8 hb]
        have hN' : 8 * rest.length + (bitsLeft + 3) ≤ N := by
          simp only [List.length_cons] at hN; omega
        have hdrest : ∀ x ∈ rest, x < 256 := fun x hx => hd x (by simp [hx])
        rw [ih rest _ (bitsLeft + 3) hN' hdrest (by omega),
          show (0x1F : Nat) = 2 ^ 5 - 1 from rfl, mask_shiftRight_eq _ (bitsLeft + 3) 5,
          ← encodeInv_step rest hdrest _ (bitsLeft + 3)]
        -- both sides are the digit string of the same pending stream
        rw [show bitsLeft + 3 + 5 = bitsLeft + 8 by omega]
        simp only [encodeInv, List.length_cons, beVal]
        rw [hU]
        have hk : (8 * rest.length + (bitsLeft + 8) + 4) / 5 =
            (8 * (rest.length + 1) + bitsLeft + 4) / 5 := by omega
        have hp : (5 - (8 * rest.length + (bitsLeft + 8)) % 5) % 5 =
            (5 - (8 * (rest.length + 1) + bitsLeft) % 5) % 5 := by omega
        rw [hk, hp, byte_pow_eq rest.length,
          show 8 * (rest.length + 1) = 8 * rest.length + 8 by ring]
        congr 1
        rw [pow_add]
        ring
      · -- emit one symbol from the buffer
        obtain ⟨m, rfl⟩ : ∃ m, bitsLeft = m + 5 := ⟨bitsLeft - 5, by omega⟩
        rw [encodeLoop]
        simp only [if_neg (by omega : ¬ m + 5 < 5), Nat.add_sub_cancel]
        have hN' : 8 * (b :: rest).length + m ≤ N := by
          simp only [List.length_cons] at hN ⊢; omega
        rw [ih (b :: rest) buffer m hN' hd (by omega),
          show (0x1F : Nat) = 2 ^ 5 - 1 from rfl, mask_shiftRight_eq buffer m 5,
          encodeInv_step (b :: rest) hd buffer m]

/-- `base32Encode` agrees with its bit-stream specification. -/
theorem base32Encode_eq_spec (data : List Nat) (hd : ∀ b ∈ data, b < 256) :
    base32Encode data = base32EncodeSpec data := by
  match data with
  | [] => simp [base32Encode, base32EncodeSpec, beDigits]
  | b :: rest =>
    have hb : b < 256 := hd b (by simp)
    rw [base32Encode, encodeLoop_spec (8 * rest.length + 8) rest b 8 (by omega)
      (fun x hx => hd x (by simp [hx])) (by omega)]
    unfold base32EncodeSpec encodeInv
    rw [show (2 : Nat) ^ 8 = 256 from rfl, Nat.mod_eq_of_lt hb]
    have h1 : (8 * rest.length + 8 + 4) / 5 = (8 * (b :: rest).length + 4) / 5 := by
      simp only [List.length_cons]; omega
    have h2 : (5 - (8 * rest.length + 8) % 5) % 5 =
        (5 - 8 * (b :: rest).length % 5) % 5 := by
      simp only [List.length_cons]; omega
    have h3 : b * 2 ^ (8 * rest.length) + beVal 256 rest = beVal 256 (b :: rest) := by
      rw [beVal, byte_pow_eq]
    rw [h1, h2, h3]

/-! ## Correctness of the decode loop -/

theorem five_pow_eq (L : Nat) : (32 : Nat) ^ L = 2 ^ (5 * L) := by
  rw [show (32 : Nat) = 2 ^ 5 from rfl, ← pow_mul]

/-- Peeling off one output byte: once `m + 8` bits are pending, the emitted
byte stream starts with the top eight of them. -/
theorem decodeOut_split (vs : List Nat) (hvs : ∀ d ∈ vs, d < 32) (U m : Nat) :
    beDigits 256 ((m + 8 + 5 * vs.length) / 8)
        ((U * 32 ^ vs.length + beVal 32 vs) / 2 ^ ((m + 8 + 5 * vs.length) % 8)) =
      U / 2 ^ m ::
        beDigits 256 ((m + 5 * vs.length) / 8)
          ((U % 2 ^ m * 32 ^ vs.length + beVal 32 vs) / 2 ^ ((m + 5 * vs.length) % 8)) := by
  set L := vs.length with hL
  have h32L : (32 : Nat) ^ L = 2 ^ (5 * L) := five_pow_eq L
  have hbv : beVal 32 vs < 2 ^ (5 * L) := by
    have := beVal_lt 32 vs hvs
    rwa [← hL, h32L] at this
  set T := m + 5 * L with hT
  set ρ := T % 8 with hρdef
  set k := T / 8 with hkdef
  have hk1 : (m + 8 + 5 * L) / 8 = k + 1 := by omega
  have hρ8 : (m + 8 + 5 * L) % 8 = ρ := by omega
  have h8k : T - ρ = 8 * k := by omega
  have hρle : ρ ≤ T := by omega
  have h256k : (256 : Nat) ^ k * 2 ^ ρ = 2 ^ m * 2 ^ (5 * L) := by
    rw [show (256 : Nat) = 2 ^ 8 from rfl, ← pow_mul, ← h8k, ← pow_add, ← pow_add,
      show T - ρ + ρ = m + 5 * L by omega]
  have hW' : U % 2 ^ m * 2 ^ (5 * L) + beVal 32 vs < 2 ^ T := by
    have hUm : U % 2 ^ m < 2 ^ m := Nat.mod_lt _ (Nat.pos_pow_of_pos _ (by norm_num))
    calc U % 2 ^ m * 2 ^ (5 * L) + beVal 32 vs
        < U % 2 ^ m * 2 ^ (5 * L) + 2 ^ (5 * L) := by omega
      _ = (U % 2 ^ m + 1) * 2 ^ (5 * L) := by ring
      _ ≤ 2 ^ m * 2 ^ (5 * L) := Nat.mul_le_mul_right _ (by omega)
      _ = 2 ^ T := by rw [← pow_add]
  have hWρ : (U % 2 ^ m * 2 ^ (5 * L) + beVal 32 vs) / 2 ^ ρ < 256 ^ k := by
    rw [Nat.div_lt_iff_lt_mul (Nat.pos_pow_of_pos _ (by norm_num)), h256k, ← pow_add]
    exact lt_of_lt_of_le hW' (Nat.pow_le_pow_right (by norm_num) (by omega))
  have hWval : (U * 2 ^ (5 * L) + beVal 32 vs) / 2 ^ ρ =
      U / 2 ^ m * 256 ^ k + (U % 2 ^ m * 2 ^ (5 * L) + beVal 32 vs) / 2 ^ ρ := by
    have hdecomp : U * 2 ^ (5 * L) + beVal 32 vs =
        2 ^ ρ * (U / 2 ^ m * 256 ^ k) + (U % 2 ^ m * 2 ^ (5 * L) + beVal 32 vs) := by
      have : 2 ^ ρ * (U / 2 ^ m * 256 ^ k) = U / 2 ^ m * (2 ^ m * 2 ^ (5 * L)) := by
        rw [← h256k]; ring
      rw [this]
      have := Nat.div_add_mod' U (2 ^ m)
      nlinarith [Nat.div_add_mod' U (2 ^ m)]
    rw [hdecomp, Nat.mul_add_div (Nat.pos_pow_of_pos _ (by norm_num))]
  rw [hk1, hρ8, h32L, hWval, beDigits_split 256 k _ _ hWρ]

/-- Dropping the bits of `U` above position `m` does not change the
accumulated stream modulo any width below the pending-bit count. -/
theorem mod_drop (U m e X ρ : Nat) (hρ : ρ ≤ m + e) :
    (U * 2 ^ e + X) % 2 ^ ρ = (U % 2 ^ m * 2 ^ e + X) % 2 ^ ρ := by
  have h1 : U % 2 ^ m * 2 ^ e + X ≡ U * 2 ^ e + X [MOD 2 ^ m * 2 ^ e] :=
    ((Nat.mod_modEq U (2 ^ m)).mul_right' _).add_right _
  have h2 : (2 : Nat) ^ ρ ∣ 2 ^ m * 2 ^ e := by
    rw [← pow_add]
    exact pow_dvd_pow 2 hρ
  exact (h1.of_dvd h2).symm

/-- The loop of `Base32Decoder::decode` on fully valid input: it succeeds
and emits exactly the whole bytes of the accumulated 5-bit stream, with the
sub-byte remainder left in the buffer. -/
theorem decodeCore_spec :
    ∀ (cs : List Char) (buffer bitsLeft : Nat), bitsLeft < 8 →
    (∀ c ∈ cs, decodeTable (c.toNat % 256) < 32) →
    ∃ bufF, decodeCore cs buffer bitsLeft =
        .ok (decodeOut (cs.map fun c => decodeTable (c.toNat % 256)) buffer bitsLeft, bufF,
          (bitsLeft + 5 * cs.length) % 8) ∧
      bufF % 2 ^ ((bitsLeft + 5 * cs.length) % 8) =
        (buffer % 2 ^ bitsLeft * 32 ^ cs.length +
          beVal 32 (cs.map fun c => decodeTable (c.toNat % 256))) %
          2 ^ ((bitsLeft + 5 * cs.length) % 8) := by
  intro cs
  induction cs with
  | nil =>
    intro buffer bitsLeft hbl _
    refine ⟨buffer, ?_, ?_⟩
    · rw [decodeCore]
      simp [decodeOut, beVal, Nat.div_eq_of_lt hbl, Nat.mod_eq_of_lt hbl, beDigits]
    · simp [beVal, Nat.mod_eq_of_lt hbl, Nat.mod_mod_of_dvd]
  | cons c rest ih =>
    intro buffer bitsLeft hbl hvalid
    have hv : decodeTable (c.toNat % 256) < 32 := hvalid c (by simp)
    have hvrest : ∀ x ∈ rest, decodeTable (x.toNat % 256) < 32 :=
      fun x hx => hvalid x (by simp [hx])
    have hdrest : ∀ d ∈ rest.map (fun c => decodeTable (c.toNat % 256)), d < 32 := by
      intro d hd
      obtain ⟨x, hx, rfl⟩ := List.mem_map.mp hd
      exact hvrest x hx
    -- the refilled buffer, seen at any width up to `bitsLeft + 5`
    have hB : ∀ j, j ≤ bitsLeft + 5 →
        ((buffer <<< 5) ||| decodeTable (c.toNat % 256)) % 2 ^ 32 % 2 ^ j =
        (buffer % 2 ^ bitsLeft * 2 ^ 5 + decodeTable (c.toNat % 256)) % 2 ^ j := by
      intro j hj
      rw [shiftLeft_or_eq buffer _ 5 hv, mod_mod_32 _ _ (by omega),
        ← Nat.mod_mod_of_dvd _ (pow_dvd_pow 2 hj),
        mod_shift_in buffer _ bitsLeft 5 hv]
    have hB5 : ((buffer <<< 5) ||| decodeTable (c.toNat % 256)) % 2 ^ 32 % 2 ^ (bitsLeft + 5) =
        buffer % 2 ^ bitsLeft * 2 ^ 5 + decodeTable (c.toNat % 256) := by
      rw [hB _ le_rfl]
      exact Nat.mod_eq_of_lt (by
        have h1 : buffer % 2 ^ bitsLeft < 2 ^ bitsLeft :=
          Nat.mod_lt _ (Nat.pos_pow_of_pos _ (by norm_num))
        calc buffer % 2 ^ bitsLeft * 2 ^ 5 + decodeTable (c.toNat % 256)
            < buffer % 2 ^ bitsLeft * 2 ^ 5 + 2 ^ 5 := by omega
          _ = (buffer % 2 ^ bitsLeft + 1) * 2 ^ 5 := by ring
          _ ≤ 2 ^ bitsLeft * 2 ^ 5 := Nat.mul_le_mul_right _ (by omega)
          _ = 2 ^ (bitsLeft + 5) := by rw [← pow_add])
    -- the whole pending stream, rewritten around the refilled buffer
    have hW : buffer % 2 ^ bitsLeft * 32 ^ (rest.length + 1) +
          beVal 32 ((c :: rest).map fun c => decodeTable (c.toNat % 256)) =
        (buffer % 2 ^ bitsLeft * 2 ^ 5 + decodeTable (c.toNat % 256)) *
          32 ^ rest.length + beVal 32 (rest.map fun c => decodeTable (c.toNat % 256)) := by
      simp only [List.map_cons, beVal, List.length_map]
      rw [show (32 : Nat) ^ (rest.length + 1) = 32 ^ rest.length * 2 ^ 5 by
        rw [pow_succ]; norm_num]
      ring
    by_cases h8 : 8 ≤ bitsLeft + 5
    · -- emit one byte, then recurse
      obtain ⟨bufF, hrec, hbufF⟩ :=
        ih (((buffer <<< 5) ||| decodeTable (c.toNat % 256)) % 2 ^ 32) (bitsLeft + 5 - 8)
          (by omega) hvrest
      have houtEq :
          (0xFF &&& ((((buffer <<< 5) ||| decodeTable (c.toNat % 256)) % 2 ^ 32) >>>
              (bitsLeft + 5 - 8))) ::
            decodeOut (rest.map fun c => decodeTable (c.toNat % 256))
              (((buffer <<< 5) ||| decodeTable (c.toNat % 256)) % 2 ^ 32) (bitsLeft + 5 - 8) =
          decodeOut ((c :: rest).map fun c => decodeTable (c.toNat % 256)) buffer bitsLeft := by
        have hmask : 0xFF &&& ((((buffer <<< 5) ||| decodeTable (c.toNat % 256)) % 2 ^ 32) >>>
            (bitsLeft + 5 - 8)) =
            (buffer % 2 ^ bitsLeft * 2 ^ 5 + decodeTable (c.toNat % 256)) / 2 ^ (bitsLeft - 3) := by
          rw [show (0xFF : Nat) = 2 ^ 8 - 1 from rfl, mask_shiftRight_eq,
            show bitsLeft + 5 - 8 + 8 = bitsLeft + 5 by omega, hB5,
            show bitsLeft + 5 - 8 = bitsLeft - 3 by omega]
        rw [hmask]
        simp only [decodeOut, List.length_map, List.length_cons]
        rw [hW, hB (bitsLeft + 5 - 8) (by omega),
          show bitsLeft + 5 - 8 = bitsLeft - 3 by omega]
        have hstep := decodeOut_split (rest.map fun c => decodeTable (c.toNat % 256)) hdrest
          (buffer % 2 ^ bitsLeft * 2 ^ 5 + decodeTable (c.toNat % 256)) (bitsLeft - 3)
        simp only [List.length_map] at hstep
        rw [show bitsLeft - 3 + 8 + 5 * rest.length = bitsLeft + 5 * (rest.length + 1) by omega]
          at hstep
        rw [← hstep]
      refine ⟨bufF, ?_, ?_⟩
      · rw [decodeCore]
        simp only [if_pos (show decodeTable (c.toNat % 256) ≤ 32 by omega), if_pos h8, hrec]
        rw [houtEq]
        simp only [List.length_map, List.length_cons]
        rw [show (bitsLeft + 5 - 8 + 5 * rest.length) % 8 =
          (bitsLeft + 5 * (rest.length + 1)) % 8 by omega]
      · rw [hB (bitsLeft + 5 - 8) (by omega)] at hbufF
        rw [List.length_cons, hW,
          show (bitsLeft + 5 * (rest.length + 1)) % 8 =
            (bitsLeft + 5 - 8 + 5 * rest.length) % 8 by omega,
          five_pow_eq rest.length,
          mod_drop (buffer % 2 ^ bitsLeft * 2 ^ 5 + decodeTable (c.toNat % 256))
            (bitsLeft + 5 - 8) (5 * rest.length)
            (beVal 32 (rest.map fun c => decodeTable (c.toNat % 256)))
            ((bitsLeft + 5 - 8 + 5 * rest.length) % 8) (by omega)]
        rw [five_pow_eq rest.length] at hbufF
        exact hbufF
    · -- fewer than 8 bits pending: no byte is emitted yet
      obtain ⟨bufF, hrec, hbufF⟩ :=
        ih (((buffer <<< 5) ||| decodeTable (c.toNat % 256)) % 2 ^ 32) (bitsLeft + 5)
          (by omega) hvrest
      refine ⟨bufF, ?_, ?_⟩
      · rw [decodeCore]
        simp only [if_pos (show decodeTable (c.toNat % 256) ≤ 32 by omega), if_neg h8, hrec]
        have houtEq : decodeOut (rest.map fun c => decodeTable (c.toNat % 256))
            (((buffer <<< 5) ||| decodeTable (c.toNat % 256)) % 2 ^ 32) (bitsLeft + 5) =
            decodeOut ((c :: rest).map fun c => decodeTable (c.toNat % 256)) buffer bitsLeft := by
          simp only [decodeOut, List.length_map, List.length_cons]
          rw [hW, hB5,
            show bitsLeft + 5 + 5 * rest.length = bitsLeft + 5 * (rest.length + 1) by omega]
        rw [houtEq]
        simp only [List.length_map, List.length_cons]
        rw [show (bitsLeft + 5 + 5 * rest.length) % 8 =
          (bitsLeft + 5 * (rest.length + 1)) % 8 by omega]
      · rw [hB5] at hbufF
        rw [List.length_cons, hW,
          show (bitsLeft + 5 * (rest.length + 1)) % 8 =
            (bitsLeft + 5 + 5 * rest.length) % 8 by omega]
        exact hbufF

/-! ## Decode table facts and the codec round trip -/

/-- Decoding inverts the encode table on every alphabet index. -/
theorem table_decode_encode : ∀ d : Nat, d < 32 →
    decodeTable ((BASE32_ENCODE_TABLE.getD d ' ').toNat % 256) = d := by decide

/-- `decode (base32Encode data) = ok data` for every byte sequence. -/
theorem decode_base32Encode (data : List Nat) (hd : ∀ b ∈ data, b < 256) :
    decode (base32Encode data) = .ok data := by
  rw [base32Encode_eq_spec data hd]
  unfold base32EncodeSpec
  set n := data.length with hn
  set M := (8 * n + 4) / 5 with hM
  set pad := (5 - 8 * n % 5) % 5 with hpad
  set vp := beVal 256 data * 2 ^ pad with hvp
  have hVlt : beVal 256 data < 2 ^ (8 * n) := beVal_bytes_lt data hd
  have h5M : 8 * n + pad = 5 * M := by omega
  have hvplt : vp < 32 ^ M := by
    rw [hvp, five_pow_eq, ← h5M, pow_add]
    exact mul_lt_mul_of_pos_right hVlt (Nat.pos_pow_of_pos _ (by norm_num))
  have hdig : ∀ d ∈ beDigits 32 M vp, d < 32 := beDigits_digit_lt 32 M vp hvplt
  have hvalid : ∀ c ∈ (beDigits 32 M vp).map (fun i => BASE32_ENCODE_TABLE.getD i ' '),
      decodeTable (c.toNat % 256) < 32 := by
    intro c hc
    obtain ⟨x, hx, rfl⟩ := List.mem_map.mp hc
    rw [table_decode_encode x (hdig x hx)]
    exact hdig x hx
  obtain ⟨bufF, hrec, hbufF⟩ := decodeCore_spec _ 0 0 (by norm_num) hvalid
  have hmaps : ((beDigits 32 M vp).map (fun i => BASE32_ENCODE_TABLE.getD i ' ')).map
      (fun c => decodeTable (c.toNat % 256)) = beDigits 32 M vp := by
    rw [List.map_map]
    have h1 : ∀ x ∈ beDigits 32 M vp,
        ((fun c => decodeTable (c.toNat % 256)) ∘ fun i => BASE32_ENCODE_TABLE.getD i ' ') x
          = id x := fun x hx => table_decode_encode x (hdig x hx)
    rw [List.map_congr_left h1, List.map_id]
  have hlen : ((beDigits 32 M vp).map (fun i => BASE32_ENCODE_TABLE.getD i ' ')).length = M := by
    rw [List.length_map, beDigits_length]
  rw [hmaps, hlen] at hrec
  rw [hmaps, hlen] at hbufF
  have hWvp : 0 % 2 ^ 0 * 32 ^ M + beVal 32 (beDigits 32 M vp) = vp := by
    rw [beVal_beDigits 32 M vp hvplt]
    simp
  have hout : decodeOut (beDigits 32 M vp) 0 0 = data := by
    rw [decodeOut, beDigits_length, hWvp,
      show (0 + 5 * M) / 8 = n by omega, show (0 + 5 * M) % 8 = pad by omega,
      hvp, Nat.mul_div_cancel _ (Nat.pos_pow_of_pos _ (by norm_num))]
    exact beDigits_beVal 256 data hd
  have hbuf0 : bufF &&& (2 ^ ((0 + 5 * M) % 8) - 1) = 0 := by
    rw [Nat.and_pow_two_sub_one_eq_mod, hbufF, hWvp,
      show (0 + 5 * M) % 8 = pad by omega, hvp, Nat.mul_mod_left]
  simp only [decode, hrec, if_pos hbuf0, hout]

/-- On success the decode loop has written exactly
`(bitsLeft + 5m) / 8` bytes. -/
theorem decodeCore_length :
    ∀ (cs : List Char) (buffer bitsLeft : Nat), bitsLeft < 8 →
    ∀ (out : List Nat) (bufF blF : Nat),
    decodeCore cs buffer bitsLeft = .ok (out, bufF, blF) →
    out.length = (bitsLeft + 5 * cs.length) / 8 := by
  intro cs
  induction cs with
  | nil =>
    intro buffer bl hbl out bufF blF h
    rw [decodeCore] at h
    simp only [Except.ok.injEq, Prod.mk.injEq] at h
    obtain ⟨h1, -, -⟩ := h
    subst h1
    simp [Nat.div_eq_of_lt hbl]
  | cons c rest ih =>
    intro buffer bl hbl out bufF blF h
    rw [decodeCore] at h
    by_cases hv : decodeTable (c.toNat % 256) ≤ 32
    · rw [if_pos hv] at h
      by_cases h8 : 8 ≤ bl + 5
      · rw [if_pos h8] at h
        cases hres : decodeCore rest (((buffer <<< 5) ||| decodeTable (c.toNat % 256)) % 2 ^ 32)
            (bl + 5 - 8) with
        | error e => rw [hres] at h; simp at h
        | ok val =>
          obtain ⟨out', bufF', blF'⟩ := val
          rw [hres] at h
          simp only [Except.ok.injEq, Prod.mk.injEq] at h
          obtain ⟨h1, -, -⟩ := h
          subst h1
          have := ih _ (bl + 5 - 8) (by omega) out' bufF' blF' hres
          simp only [List.length_cons, this]
          omega
      · rw [if_neg h8] at h
        have := ih _ (bl + 5) (by omega) out bufF blF h
        simp only [List.length_cons, this]
        omega
    · rw [if_neg hv] at h; simp at h

/-- The first character outside the (folded) alphabet aborts the loop with
the invalid-encoding failure, wherever it sits in the input. -/
theorem decodeCore_invalid :
    ∀ (cs : List Char) (buffer bitsLeft : Nat),
    (∃ c ∈ cs, 32 < decodeTable (c.toNat % 256)) →
    decodeCore cs buffer bitsLeft = .error .invalidEncoding := by
  intro cs
  induction cs with
  | nil =>
    rintro _ _ ⟨c, hc, -⟩
    exact absurd hc (List.not_mem_nil c)
  | cons c rest ih =>
    rintro buffer bl ⟨x, hx, hxv⟩
    rw [decodeCore]
    by_cases hv : decodeTable (c.toNat % 256) ≤ 32
    · rw [if_pos hv]
      have hxrest : x ∈ rest := by
        rcases List.mem_cons.mp hx with rfl | h
        · omega
        · exact h
      by_cases h8 : 8 ≤ bl + 5
      · rw [if_pos h8, ih _ _ ⟨x, hxrest, hxv⟩]
      · rw [if_neg h8]
        exact ih _ _ ⟨x, hxrest, hxv⟩
    · rw [if_neg hv]

/-- A string containing any character outside the folded alphabet fails to
decode with the invalid-encoding failure. -/
theorem decode_invalid (cs : List Char)
    (h : ∃ c ∈ cs, 32 < decodeTable (c.toNat % 256)) :
    decode cs = .error .invalidEncoding := by
  rw [decode, decodeCore_invalid cs 0 0 h]

/-- A string of valid characters whose leftover bits are non-zero fails to
decode with the trailing-bits failure. -/
theorem decode_trailing (cs : List Char)
    (hvalid : ∀ c ∈ cs, decodeTable (c.toNat % 256) < 32)
    (hbits : beVal 32 (cs.map fun c => decodeTable (c.toNat % 256)) %
      2 ^ (5 * cs.length % 8) ≠ 0) :
    decode cs = .error .trailingBits := by
  obtain ⟨bufF, hrec, hbufF⟩ := decodeCore_spec cs 0 0 (by norm_num) hvalid
  have hb : ¬ (bufF &&& (2 ^ ((0 + 5 * cs.length) % 8) - 1) = 0) := by
    rw [Nat.and_pow_two_sub_one_eq_mod, hbufF]
    simpa using hbits
  rw [decode]
  simp only [hrec]
  rw [if_neg hb]

/-! ## Properties of the archive materializer -/

/-- Processing a level is sequential: a level `xs ++ ys` behaves as `xs`
followed, on success, by `ys` with the names of `xs` recorded in `seen`. -/
theorem unpackDir_append (xs ys : List File) :
    ∀ (seen dirname : List String) (fs : FS),
    unpackDir (xs ++ ys) seen dirname fs =
      match unpackDir xs seen dirname fs with
      | (fs2, none) => unpackDir ys ((xs.map File.name).reverse ++ seen) dirname fs2
      | (fs2, some e) => (fs2, some e) := by
  induction xs with
  | nil =>
    intro seen dirname fs
    simp [unpackDir]
  | cons f rest ih =>
    intro seen dirname fs
    simp only [List.cons_append]
    rw [unpackDir.eq_def]
    conv_rhs => rw [unpackDir.eq_def]
    simp only
    by_cases h1 : validName f.name = true
    · simp only [if_neg (by simp [h1] : ¬ ¬ validName f.name = true)]
      by_cases h2 : f.name ∈ seen
      · simp [if_pos h2]
      · simp only [if_neg h2]
        by_cases h3 : fsExists fs (dirname ++ [f.name]) = true
        · simp [if_pos h3]
        · simp only [if_neg h3]
          cases f with
          | regular name content =>
            simp only [File.name]
            rw [ih]
            simp [File.name, List.append_assoc]
          | executable name content =>
            simp only [File.name]
            rw [ih]
            simp [File.name, List.append_assoc]
          | symlink name target =>
            simp only [File.name]
            rw [ih]
            simp [File.name, List.append_assoc]
          | directory name entries =>
            simp only [File.name]
            cases hinner : unpackDir entries [] (dirname ++ [name])
                ((dirname ++ [name], FSNode.dir) :: fs) with
            | mk fs2 e =>
              cases e with
              | none =>
                simp only
                rw [ih]
                simp [File.name, List.append_assoc]
              | some err => rfl
          | unknown name => rfl
    · have hf : validName f.name = false := by simpa using h1
      simp [hf]

/-- `access(path, F_OK) != 0` in terms of bindings: a path is absent exactly
when no binding carries it. -/
theorem fsExists_false_iff (fs : FS) (p : List String) :
    fsExists fs p = false ↔ ∀ b ∈ fs, b.1 ≠ p := by
  rw [fsExists, List.any_eq_false]
  constructor
  · intro h b hb
    simpa using h b hb
  · intro h b hb
    simpa using h b hb

/-- Already-materialized filesystem bindings are never removed or replaced:
every binding of the incoming state survives in the outgoing state, whether
the unpack succeeds or aborts. -/
theorem unpackDir_mono (N : Nat) :
    ∀ (files : List File) (seen dirname : List String) (fs : FS),
    sizeOf files ≤ N →
    ∀ b ∈ fs, b ∈ (unpackDir files seen dirname fs).1 := by
  induction N with
  | zero =>
    intro files seen dirname fs h b hb
    cases files with
    | nil => rw [unpackDir]; exact hb
    | cons f rest => simp at h
  | succ N ih =>
    intro files seen dirname fs h b hb
    cases files with
    | nil => rw [unpackDir]; exact hb
    | cons f rest =>
      rw [unpackDir.eq_def]
      simp only
      split_ifs with h1 h2 h3
      all_goals try exact hb
      cases f with
      | regular name content =>
        exact ih rest _ _ _ (by simp at h; omega) b (List.mem_cons_of_mem _ hb)
      | executable name content =>
        exact ih rest _ _ _ (by simp at h; omega) b (List.mem_cons_of_mem _ hb)
      | symlink name target =>
        exact ih rest _ _ _ (by simp at h; omega) b (List.mem_cons_of_mem _ hb)
      | directory name entries =>
        simp only [File.name]
        rcases hinner : unpackDir entries [] (dirname ++ [name])
            ((dirname ++ [name], FSNode.dir) :: fs) with ⟨fs2, e⟩
        have hfs2 : b ∈ fs2 := by
          have := ih entries [] (dirname ++ [name]) ((dirname ++ [name], FSNode.dir) :: fs)
            (by simp at h; omega) b (List.mem_cons_of_mem _ hb)
          rw [hinner] at this
          exact this
        cases e with
        | none => exact ih rest _ _ _ (by simp at h; omega) b hfs2
        | some err => exact hfs2
      | unknown name => exact hb

/-- Every binding created by `unpackDir` sits under `dirname/<n>` for some
entry name `n` of the processed level. -/
theorem unpackDir_writes (N : Nat) :
    ∀ (files : List File) (seen dirname : List String) (fs : FS),
    sizeOf files ≤ N →
    ∀ b ∈ (unpackDir files seen dirname fs).1,
      b ∈ fs ∨ ∃ n tail, n ∈ files.map File.name ∧ b.1 = dirname ++ n :: tail := by
  induction N with
  | zero =>
    intro files seen dirname fs h b hb
    cases files with
    | nil => rw [unpackDir] at hb; exact Or.inl hb
    | cons f rest => simp at h
  | succ N ih =>
    intro files seen dirname fs h b hb
    cases files with
    | nil => rw [unpackDir] at hb; exact Or.inl hb
    | cons f rest =>
      rw [unpackDir.eq_def] at hb
      simp only at hb
      split_ifs at hb with h1 h2 h3
      all_goals try exact Or.inl hb
      cases f with
      | regular name content =>
        rcases ih rest _ _ _ (by simp at h; omega) b hb with hb' | ⟨n, tail, hn, hp⟩
        · rcases List.mem_cons.mp hb' with rfl | hb''
          · exact Or.inr ⟨name, [], by simp [File.name], by simp [File.name]⟩
          · exact Or.inl hb''
        · exact Or.inr ⟨n, tail, by simp [File.name]; right; simpa using hn, hp⟩
      | executable name content =>
        rcases ih rest _ _ _ (by simp at h; omega) b hb with hb' | ⟨n, tail, hn, hp⟩
        · rcases List.mem_cons.mp hb' with rfl | hb''
          · exact Or.inr ⟨name, [], by simp [File.name], by simp [File.name]⟩
          · exact Or.inl hb''
        · exact Or.inr ⟨n, tail, by simp [File.name]; right; simpa using hn, hp⟩
      | symlink name target =>
        rcases ih rest _ _ _ (by simp at h; omega) b hb with hb' | ⟨n, tail, hn, hp⟩
        · rcases List.mem_cons.mp hb' with rfl | hb''
          · exact Or.inr ⟨name, [], by simp [File.name], by simp [File.name]⟩
          · exact Or.inl hb''
        · exact Or.inr ⟨n, tail, by simp [File.name]; right; simpa using hn, hp⟩
      | directory name entries =>
        simp only [File.name] at hb
        rcases hinner : unpackDir entries [] (dirname ++ [name])
            ((dirname ++ [name], FSNode.dir) :: fs) with ⟨fs2, e⟩
        rw [hinner] at hb
        have hfs2 : ∀ x ∈ fs2, x ∈ fs ∨
            ∃ n tail, n ∈ (File.directory name entries :: rest).map File.name ∧
              x.1 = dirname ++ n :: tail := by
          intro x hx
          have hx2 : x ∈ (unpackDir entries [] (dirname ++ [name])
              ((dirname ++ [name], FSNode.dir) :: fs)).1 := by rw [hinner]; exact hx
          rcases ih entries _ _ _ (by simp at h; omega) x hx2 with hx' | ⟨n, tail, hn, hp⟩
          · rcases List.mem_cons.mp hx' with rfl | hx''
            · exact Or.inr ⟨name, [], by simp [File.name], by simp [File.name]⟩
            · exact Or.inl hx''
          · refine Or.inr ⟨name, n :: tail, by simp [File.name], ?_⟩
            rw [hp]
            simp
        cases e with
        | none =>
          rcases ih rest _ _ _ (by simp at h; omega) b hb with hb' | ⟨n, tail, hn, hp⟩
          · exact hfs2 b hb'
          · exact Or.inr ⟨n, tail, by simp [File.name]; right; simpa using hn, hp⟩
        | some err => exact hfs2 b hb
      | unknown name => exact Or.inl hb

/-- If a level materializes successfully, its entry names are distinct and
none of them was already recorded in `seen`. -/
theorem unpackDir_ok_nodup (N : Nat) :
    ∀ (files : List File) (seen dirname : List String) (fs : FS) (fs' : FS),
    sizeOf files ≤ N →
    unpackDir files seen dirname fs = (fs', none) →
    (files.map File.name).Nodup ∧ ∀ n ∈ files.map File.name, n ∉ seen := by
  induction N with
  | zero =>
    intro files seen dirname fs fs' h hok
    cases files with
    | nil => simp
    | cons f rest => simp at h
  | succ N ih =>
    intro files seen dirname fs fs' h hok
    cases files with
    | nil => simp
    | cons f rest =>
      rw [unpackDir.eq_def] at hok
      simp only at hok
      split_ifs at hok with h1 h2 h3
      all_goals try simp at hok
      have hstep : ∀ fs1 : FS, unpackDir rest (f.name :: seen) dirname fs1 = (fs', none) →
          ((f :: rest).map File.name).Nodup ∧
            ∀ n ∈ (f :: rest).map File.name, n ∉ seen := by
        intro fs1 hrec
        obtain ⟨hnd, hns⟩ := ih rest _ _ _ _ (by simp at h; omega) hrec
        constructor
        · simp only [List.map_cons, List.nodup_cons]
          refine ⟨fun hmem => ?_, hnd⟩
          have := hns _ hmem
          simp at this
        · intro n hn
          rw [List.map_cons] at hn
          rcases List.mem_cons.mp hn with rfl | hn'
          · exact h2
          · have := hns n hn'
            intro hcon
            exact this (List.mem_cons_of_mem _ hcon)
      cases f with
      | regular name content => exact hstep _ hok
      | executable name content => exact hstep _ hok
      | symlink name target => exact hstep _ hok
      | directory name entries =>
        simp only [File.name] at hok
        rcases hinner : unpackDir entries [] (dirname ++ [name])
            ((dirname ++ [name], FSNode.dir) :: fs) with ⟨fs2, e⟩
        rw [hinner] at hok
        cases e with
        | none => exact hstep _ hok
        | some err => simp at hok
      | unknown name => simp at hok

/-! ## Pack/unpack round trip -/

/-- Every expected binding of a materialized tree sits under `path/<n>` for
some top-level entry name `n`. -/
theorem treeBindings_shape (M : Nat) :
    ∀ (entries : List (String × SrcNode)) (path : List String),
    sizeOf entries ≤ M →
    ∀ b ∈ treeBindings path entries,
      ∃ n tail, n ∈ entries.map Prod.fst ∧ b.1 = path ++ n :: tail := by
  induction M with
  | zero =>
    intro entries path h b hb
    cases entries with
    | nil => simp [treeBindings] at hb
    | cons e rest => simp at h
  | succ M ih =>
    intro entries path h b hb
    match entries with
    | [] => simp [treeBindings] at hb
    | (name, SrcNode.regular c e) :: rest =>
      rw [treeBindings] at hb
      rcases List.mem_cons.mp hb with rfl | hb'
      · exact ⟨name, [], by simp, by simp⟩
      · obtain ⟨n, tail, hn, hp⟩ := ih rest path (by simp at h; omega) b hb'
        exact ⟨n, tail, by simp; right; simpa using hn, hp⟩
    | (name, SrcNode.symlink t) :: rest =>
      rw [treeBindings] at hb
      rcases List.mem_cons.mp hb with rfl | hb'
      · exact ⟨name, [], by simp, by simp⟩
      · obtain ⟨n, tail, hn, hp⟩ := ih rest path (by simp at h; omega) b hb'
        exact ⟨n, tail, by simp; right; simpa using hn, hp⟩
    | (name, SrcNode.directory sub) :: rest =>
      rw [treeBindings] at hb
      rcases List.mem_cons.mp hb with rfl | hb'
      · exact ⟨name, [], by simp, by simp⟩
      · rcases List.mem_append.mp hb' with hsub | hrest
        · obtain ⟨n, tail, hn, hp⟩ := ih sub (path ++ [name]) (by simp at h; omega) b hsub
          refine ⟨name, n :: tail, by simp, ?_⟩
          rw [hp]
          simp
        · obtain ⟨n, tail, hn, hp⟩ := ih rest path (by simp at h; omega) b hrest
          exact ⟨n, tail, by simp; right; simpa using hn, hp⟩

/-- Unpacking the archive produced by the directory archiver reproduces the
source tree exactly: it succeeds and adds precisely the tree's bindings, in
materialization order. -/
theorem pack_unpack (M : Nat) :
    ∀ (entries : List (String × SrcNode)) (seen path : List String) (fs : FS),
    sizeOf entries ≤ M →
    validTree entries = true →
    (∀ n ∈ entries.map Prod.fst, n ∉ seen) →
    (∀ b ∈ treeBindings path entries, fsExists fs b.1 = false) →
    unpackDir (packDirectory entries) seen path fs =
      ((treeBindings path entries).reverse ++ fs, none) := by
  induction M with
  | zero =>
    intro entries seen path fs h _ _ _
    cases entries with
    | nil => simp [packDirectory, unpackDir, treeBindings]
    | cons e rest => simp at h
  | succ M ih =>
    intro entries seen path fs h hvt hseen hfresh
    match entries with
    | [] => simp [packDirectory, unpackDir, treeBindings]
    | (name, node) :: rest =>
      rw [validTree] at hvt
      simp only [Bool.and_eq_true, Bool.not_eq_true'] at hvt
      obtain ⟨⟨⟨hvn, hnodup⟩, hvnode⟩, hvrest⟩ := hvt
      have hname_rest : name ∉ rest.map Prod.fst := by simpa using hnodup
      have hseen_name : name ∉ seen := hseen name (by simp)
      have hseen' : ∀ n ∈ rest.map Prod.fst, n ∉ name :: seen := by
        intro n hn hmem
        rcases List.mem_cons.mp hmem with rfl | hmem'
        · exact hname_rest hn
        · exact hseen n (by rw [List.map_cons]; exact List.mem_cons_of_mem _ hn) hmem'
      have hrest_size : sizeOf rest ≤ M := by simp at h; omega
      have hne_head : ∀ b ∈ treeBindings path rest, b.1 ≠ path ++ [name] := by
        intro b hb heq
        obtain ⟨n, tail, hn, hp⟩ := treeBindings_shape (sizeOf rest) rest path le_rfl b hb
        rw [hp] at heq
        have h2 : (n : String) :: tail = [name] := List.append_cancel_left heq
        have : n = name := ((List.cons.injEq _ _ _ _).mp h2).1
        subst this
        exact hname_rest hn
      cases node with
      | regular c e =>
        have hfresh_rest : ∀ b ∈ treeBindings path rest, fsExists fs b.1 = false := by
          intro b hb
          exact hfresh b (by rw [treeBindings]; exact List.mem_cons_of_mem _ hb)
        have hfresh_head : fsExists fs (path ++ [name]) = false :=
          hfresh (path ++ [name], FSNode.file c (if e then 0o777 else 0o666))
            (by rw [treeBindings]; exact List.mem_cons_self _ _)
        cases e with
        | false =>
          have hih := ih rest (name :: seen) path
            ((path ++ [name], FSNode.file c 0o666) :: fs)
            hrest_size hvrest hseen'
            (by
              intro b hb
              rw [fsExists_false_iff]
              intro b2 hb2
              rcases List.mem_cons.mp hb2 with rfl | hb2'
              · exact fun hq => hne_head b hb hq.symm
              · exact (fsExists_false_iff fs b.1).mp (hfresh_rest b hb) b2 hb2')
          rw [show packDirectory ((name, SrcNode.regular c false) :: rest) =
              File.regular name c :: packDirectory rest by rw [packDirectory, packFile]; rfl]
          rw [unpackDir.eq_def]
          simp only [File.name]
          rw [if_neg (not_not_intro hvn), if_neg hseen_name, if_neg (by simp [hfresh_head])]
          rw [hih, treeBindings]
          simp [List.append_assoc]
        | true =>
          have hih := ih rest (name :: seen) path
            ((path ++ [name], FSNode.file c 0o777) :: fs)
            hrest_size hvrest hseen'
            (by
              intro b hb
              rw [fsExists_false_iff]
              intro b2 hb2
              rcases List.mem_cons.mp hb2 with rfl | hb2'
              · exact fun hq => hne_head b hb hq.symm
              · exact (fsExists_false_iff fs b.1).mp (hfresh_rest b hb) b2 hb2')
          rw [show packDirectory ((name, SrcNode.regular c true) :: rest) =
              File.executable name c :: packDirectory rest by rw [packDirectory, packFile]; rfl]
          rw [unpackDir.eq_def]
          simp only [File.name]
          rw [if_neg (not_not_intro hvn), if_neg hseen_name, if_neg (by simp [hfresh_head])]
          rw [hih, treeBindings]
          simp [List.append_assoc]
      | symlink t =>
        have hmemh : ((path ++ [name], FSNode.symlink t) :
            List String × FSNode) ∈ treeBindings path ((name, SrcNode.symlink t) :: rest) := by
          rw [treeBindings]
          exact List.mem_cons_self _ _
        have hfresh_head : fsExists fs (path ++ [name]) = false := hfresh _ hmemh
        have hfresh_rest : ∀ b ∈ treeBindings path rest, fsExists fs b.1 = false := by
          intro b hb
          exact hfresh b (by rw [treeBindings]; exact List.mem_cons_of_mem _ hb)
        have hih := ih rest (name :: seen) path ((path ++ [name], FSNode.symlink t) :: fs)
          hrest_size hvrest hseen'
          (by
            intro b hb
            rw [fsExists_false_iff]
            intro b2 hb2
            rcases List.mem_cons.mp hb2 with rfl | hb2'
            · exact fun hq => hne_head b hb hq.symm
            · exact (fsExists_false_iff fs b.1).mp (hfresh_rest b hb) b2 hb2'
            )
        rw [show packDirectory ((name, SrcNode.symlink t) :: rest) =
            File.symlink name t :: packDirectory rest by rw [packDirectory, packFile]]
        rw [unpackDir.eq_def]
        simp only [File.name]
        rw [if_neg (not_not_intro hvn), if_neg hseen_name, if_neg (by simp [hfresh_head])]
        rw [hih, treeBindings]
        simp [List.append_assoc]
      | directory sub =>
        have hsub_size : sizeOf sub ≤ M := by simp at h; omega
        have hmemh : ((path ++ [name], FSNode.dir) :
            List String × FSNode) ∈ treeBindings path ((name, SrcNode.directory sub) :: rest) := by
          rw [treeBindings]
          exact List.mem_cons_self _ _
        have hfresh_head : fsExists fs (path ++ [name]) = false := hfresh _ hmemh
        have hfresh_sub : ∀ b ∈ treeBindings (path ++ [name]) sub, fsExists fs b.1 = false := by
          intro b hb
          exact hfresh b
            (by rw [treeBindings]; exact List.mem_cons_of_mem _ (List.mem_append_left _ hb))
        have hfresh_rest : ∀ b ∈ treeBindings path rest, fsExists fs b.1 = false := by
          intro b hb
          exact hfresh b
            (by rw [treeBindings]; exact List.mem_cons_of_mem _ (List.mem_append_right _ hb))
        have hvsub : validTree sub = true := by simpa [validNode] using hvnode
        have hsub_ne : ∀ b ∈ treeBindings (path ++ [name]) sub, b.1 ≠ path ++ [name] := by
          intro b hb heq
          obtain ⟨n, tail, hn, hp⟩ :=
            treeBindings_shape (sizeOf sub) sub (path ++ [name]) le_rfl b hb
          rw [hp] at heq
          have := congrArg List.length heq
          simp at this
        have hinner := ih sub [] (path ++ [name]) ((path ++ [name], FSNode.dir) :: fs)
          hsub_size hvsub (by simp)
          (by
            intro b hb
            rw [fsExists_false_iff]
            intro b2 hb2
            rcases List.mem_cons.mp hb2 with rfl | hb2'
            · exact fun hq => hsub_ne b hb hq.symm
            · exact (fsExists_false_iff fs b.1).mp (hfresh_sub b hb) b2 hb2'
            )
        have hne_sub : ∀ b ∈ treeBindings path rest,
            ∀ b2 ∈ treeBindings (path ++ [name]) sub, b2.1 ≠ b.1 := by
          intro b hb b2 hb2
          obtain ⟨n, tail, hn, hp⟩ := treeBindings_shape (sizeOf rest) rest path le_rfl b hb
          obtain ⟨n2, tail2, hn2, hp2⟩ :=
            treeBindings_shape (sizeOf sub) sub (path ++ [name]) le_rfl b2 hb2
          rw [hp, hp2, List.append_assoc]
          intro heq
          have h2 := List.append_cancel_left heq
          simp only [List.singleton_append, List.cons.injEq] at h2
          obtain ⟨rfl, -⟩ := h2
          exact hname_rest hn
        have hrec := ih rest (name :: seen) path
          ((treeBindings (path ++ [name]) sub).reverse ++ ((path ++ [name], FSNode.dir) :: fs))
          hrest_size hvrest hseen'
          (by
            intro b hb
            rw [fsExists_false_iff]
            intro b2 hb2
            rcases List.mem_append.mp hb2 with hb2' | hb2''
            · exact hne_sub b hb b2 (List.mem_reverse.mp hb2')
            · rcases List.mem_cons.mp hb2'' with rfl | hb3
              · exact fun hq => hne_head b hb hq.symm
              · exact (fsExists_false_iff fs b.1).mp (hfresh_rest b hb) b2 hb3
            )
        rw [show packDirectory ((name, SrcNode.directory sub) :: rest) =
            File.directory name (packDirectory sub) :: packDirectory rest by
              rw [packDirectory, packFile]]
        rw [unpackDir.eq_def]
        simp only [File.name]
        rw [if_neg (not_not_intro hvn), if_neg hseen_name, if_neg (by simp [hfresh_head])]
        rw [hinner]
        simp only
        rw [hrec, treeBindings]
        simp [List.append_assoc]

/-! ## Claim theorems -/

/-- C1: For any directory tree whose entry names respect the naming
invariants (non-empty, no separator or NUL, not dot or dot-dot, unique among
siblings), packing the tree and then unpacking the resulting archive
reproduces an identical tree: the same contents and executable
classification for every regular file (mode `0777` vs `0666`), the same
symlink targets, the same nested directory structure, and the bindings are
materialized exactly in the packer's enumeration order
(`treeBindings path entries` in order). -/
theorem claim_C1 (entries : List (String × SrcNode)) (seen path : List String) (fs : FS)
    (hvt : validTree entries = true)
    (hseen : ∀ n ∈ entries.map Prod.fst, n ∉ seen)
    (hfresh : ∀ b ∈ treeBindings path entries, fsExists fs b.1 = false) :
    unpackDir (packDirectory entries) seen path fs =
      ((treeBindings path entries).reverse ++ fs, none) :=
  pack_unpack (sizeOf entries) entries seen path fs le_rfl hvt hseen hfresh

/-- Witness for C1 on a concrete three-entry tree with a nested directory,
an executable, a regular file and a symlink. -/
theorem claim_C1_witness :
    unpackDir (packDirectory [("bin", SrcNode.directory [("app", SrcNode.regular [1, 2] true)]),
        ("readme", SrcNode.regular [3] false), ("link", SrcNode.symlink "readme")])
      [] ["out"] [] =
    ((treeBindings ["out"] [("bin", SrcNode.directory [("app", SrcNode.regular [1, 2] true)]),
        ("readme", SrcNode.regular [3] false), ("link", SrcNode.symlink "readme")]).reverse ++ [],
      none) :=
  claim_C1 _ _ _ _ (by decide) (by decide) (fun b _ => rfl)

/-- C2: after the signature record is parsed (with well-sized key and
signature fields), the verification pipeline fails with `invalidSignature`
when the cryptographic open fails, with `malformedSignature` when the
recovered hash has the wrong length, with `contentMismatch` when the
re-hashed archive differs from the recovered hash, and succeeds otherwise —
in exactly this order, terminal on the first failure. -/
theorem claim_C2 (magic : List Nat) (C : CryptoModel)
    (decompress : List Nat → List Nat)
    (parseSignature : List Nat → Option ((List Nat × List Nat) × List Nat))
    (file pk sig archive : List Nat)
    (hlen : magic.length ≤ file.length)
    (hmagic : file.take magic.length = magic)
    (hparse : parseSignature (decompress (file.drop magic.length)) = some ((pk, sig), archive))
    (hpk : pk.length = crypto_sign_PUBLICKEYBYTES)
    (hsig : sig.length = crypto_hash_BYTES + crypto_sign_BYTES) :
    (C.signOpen sig pk = none →
      doUnpack magic C decompress parseSignature file =
        ([.spawnedDecompressor], .error .invalidSignature)) ∧
    (∀ h, C.signOpen sig pk = some h → h.length ≠ crypto_hash_BYTES →
      doUnpack magic C decompress parseSignature file =
        ([.spawnedDecompressor], .error .malformedSignature)) ∧
    (∀ h, C.signOpen sig pk = some h → h.length = crypto_hash_BYTES →
      C.hash archive ≠ h →
      doUnpack magic C decompress parseSignature file =
        ([.spawnedDecompressor], .error .contentMismatch)) ∧
    (∀ h, C.signOpen sig pk = some h → h.length = crypto_hash_BYTES →
      C.hash archive = h →
      doUnpack magic C decompress parseSignature file =
        ([.spawnedDecompressor], .ok archive)) := by
  have hnotlt : ¬ file.length < magic.length := by omega
  refine ⟨?_, ?_, ?_, ?_⟩
  · intro hopen
    simp [doUnpack, hnotlt, hmagic, hparse, hpk, hsig, hopen]
  · intro h hopen hlen2
    simp [doUnpack, hnotlt, hmagic, hparse, hpk, hsig, hopen, hlen2]
  · intro h hopen hlen2 hne
    simp [doUnpack, hnotlt, hmagic, hparse, hpk, hsig, hopen, hlen2, hne]
  · intro h hopen hlen2 heq
    simp [doUnpack, hnotlt, hmagic, hparse, hpk, hsig, hopen, hlen2, heq]

/-- Witness for C2: a one-byte magic, stub decompressor/parser, and a
crypto model whose open always fails gives `invalidSignature`. -/
theorem claim_C2_witness :
    doUnpack [7] ⟨fun _ _ => none, fun _ => []⟩ (fun _ => [])
      (fun _ => some ((List.replicate 32 0, List.replicate 128 0), [1, 2])) [7] =
    ([.spawnedDecompressor], .error .invalidSignature) :=
  (claim_C2 [7] ⟨fun _ _ => none, fun _ => []⟩ (fun _ => [])
      (fun _ => some ((List.replicate 32 0, List.replicate 128 0), [1, 2])) [7]
      (List.replicate 32 0) (List.replicate 128 0) [1, 2]
      (by decide) (by decide) rfl (by decide) (by decide)).1 rfl

/-- C4: an input whose leading bytes do not match the magic constant is
rejected with `badMagic` and no decompressor subprocess event is ever
emitted; conversely a spawn event implies the magic prefix was present and
fully matched. -/
theorem claim_C4 (magic : List Nat) (C : CryptoModel)
    (decompress : List Nat → List Nat)
    (parseSignature : List Nat → Option ((List Nat × List Nat) × List Nat))
    (file : List Nat)
    (hlen : magic.length ≤ file.length)
    (hbad : file.take magic.length ≠ magic) :
    doUnpack magic C decompress parseSignature file = ([], .error .badMagic) ∧
    UnpackEvent.spawnedDecompressor ∉ (doUnpack magic C decompress parseSignature file).1 ∧
    (∀ file2, UnpackEvent.spawnedDecompressor ∈
        (doUnpack magic C decompress parseSignature file2).1 →
      magic.length ≤ file2.length ∧ file2.take magic.length = magic) := by
  have hnotlt : ¬ file.length < magic.length := by omega
  have hres : doUnpack magic C decompress parseSignature file = ([], .error .badMagic) := by
    simp [doUnpack, hnotlt, hbad]
  refine ⟨hres, by simp [hres], ?_⟩
  intro file2 hmem
  by_cases h1 : file2.length < magic.length
  · rw [doUnpack, if_pos h1] at hmem
    simp at hmem
  · by_cases h2 : file2.take magic.length = magic
    · exact ⟨by omega, h2⟩
    · rw [doUnpack, if_neg h1, if_pos h2] at hmem
      simp at hmem

/-- Witness for C4: a file starting with the wrong byte is rejected with
`badMagic` and no spawn event. -/
theorem claim_C4_witness :
    doUnpack [7] ⟨fun _ _ => none, fun _ => []⟩ (fun _ => []) (fun _ => none) [8, 7] =
      ([], .error .badMagic) :=
  (claim_C4 [7] ⟨fun _ _ => none, fun _ => []⟩ (fun _ => []) (fun _ => none) [8, 7]
    (by decide) (by decide)).1


/-- C3: decode inverts encode on every byte sequence; in particular the
byte `0xFF` encodes to `"zw"` and `"zw"` decodes back to `[0xFF]`. -/
theorem claim_C3 :
    (∀ data : List Nat, (∀ b ∈ data, b < 256) → decode (base32Encode data) = .ok data) ∧
    base32Encode [0xFF] = ['z', 'w'] ∧
    decode ['z', 'w'] = .ok [0xFF] := by
  refine ⟨decode_base32Encode, ?_, by decide⟩
  rw [base32Encode_eq_spec [0xFF] (by decide)]
  decide

/-- Witness for C3: the round trip on the single byte `0xFF`. -/
theorem claim_C3_witness : decode (base32Encode [0xFF]) = .ok [0xFF] :=
  claim_C3.1 [0xFF] (by decide)

/-- C7: `base32Encode` equals the bit-stream specification (5 bits per
character, most-significant bits first, zero-padded final group) and always
produces exactly `⌈8n/5⌉` characters. -/
theorem claim_C7 (data : List Nat) (hd : ∀ b ∈ data, b < 256) :
    base32Encode data = base32EncodeSpec data ∧
    (base32Encode data).length = (8 * data.length + 4) / 5 := by
  refine ⟨base32Encode_eq_spec data hd, ?_⟩
  rw [base32Encode_eq_spec data hd, base32EncodeSpec, List.length_map, beDigits_length]

/-- Witness for C7 at a two-byte input (`⌈16/5⌉ = 4` characters). -/
theorem claim_C7_witness :
    base32Encode [255, 0] = base32EncodeSpec [255, 0] ∧
    (base32Encode [255, 0]).length = 4 :=
  claim_C7 [255, 0] (by decide)

/-- Helper for C8: `Char.toNat` is injective. -/
theorem char_toNat_inj {a b : Char} (h : a.toNat = b.toNat) : a = b := by
  rw [← Char.ofNat_toNat a, ← Char.ofNat_toNat b, h]

set_option maxRecDepth 8192 in
/-- C8: the decode table folds `o`/`O` to the value of `0`, `i`/`I`/`l`/`L`
to the value of `1`, `b`/`B` to the value of `8`, accepts both cases of the
alphabet; any character outside the folded alphabet makes `decode` fail
with `invalidEncoding`, and non-zero leftover bits make it fail with
`trailingBits`. -/
theorem claim_C8 :
    (decodeTable 'o'.toNat = 0 ∧ decodeTable 'O'.toNat = 0 ∧ decodeTable '0'.toNat = 0 ∧
     decodeTable 'i'.toNat = 1 ∧ decodeTable 'I'.toNat = 1 ∧
     decodeTable 'l'.toNat = 1 ∧ decodeTable 'L'.toNat = 1 ∧ decodeTable '1'.toNat = 1 ∧
     decodeTable 'b'.toNat = 8 ∧ decodeTable 'B'.toNat = 8 ∧ decodeTable '8'.toNat = 8) ∧
    (∀ n : Nat, n < 256 →
      (decodeTable n ≤ 32 ↔ n ∈ base32AcceptedChars.map Char.toNat)) ∧
    (∀ cs : List Char, (∀ c ∈ cs, c.toNat < 256) →
      (∃ c ∈ cs, c ∉ base32AcceptedChars) →
      decode cs = .error .invalidEncoding) ∧
    (∀ cs : List Char, (∀ c ∈ cs, decodeTable (c.toNat % 256) < 32) →
      beVal 32 (cs.map fun c => decodeTable (c.toNat % 256)) % 2 ^ (5 * cs.length % 8) ≠ 0 →
      decode cs = .error .trailingBits) := by
  have htable : ∀ n : Nat, n < 256 →
      (decodeTable n ≤ 32 ↔ n ∈ base32AcceptedChars.map Char.toNat) := by decide
  refine ⟨by decide, htable, ?_, decode_trailing⟩
  intro cs hbytes ⟨c, hc, hout⟩
  apply decode_invalid
  refine ⟨c, hc, ?_⟩
  have hlt : c.toNat < 256 := hbytes c hc
  rw [Nat.mod_eq_of_lt hlt]
  by_contra hle
  have hmem := (htable c.toNat hlt).mp (by omega)
  obtain ⟨x, hx, hxe⟩ := List.mem_map.mp hmem
  exact hout (char_toNat_inj hxe ▸ hx)

/-- Witness for C8: `"a!"` contains a non-alphabet character and fails with
`invalidEncoding`; `"zz"` has non-zero leftover bits and fails with
`trailingBits`. -/
theorem claim_C8_witness :
    decode ['a', '!'] = .error .invalidEncoding ∧
    decode ['z', 'z'] = .error .trailingBits :=
  ⟨claim_C8.2.2.1 ['a', '!'] (by decide) ⟨'!', by decide, by decide⟩,
   claim_C8.2.2.2 ['z', 'z'] (by decide) (by decide)⟩

/-- C9: the codec's writes exactly fill their allocations: encode emits
`⌈8n/5⌉` symbols into its `⌈8n/5⌉`-character result, and a successful
decode loop emits `⌊5m/8⌋` bytes — in particular never more than the `m`
bound the code's own assertion checks, and never beyond `⌊5m/8⌋` even when
only a prefix of the input has been consumed so far. -/
theorem claim_C9 :
    (∀ data : List Nat, (∀ b ∈ data, b < 256) →
      (base32Encode data).length = (8 * data.length + 4) / 5) ∧
    (∀ (cs : List Char) (out : List Nat) (bufF blF : Nat),
      decodeCore cs 0 0 = .ok (out, bufF, blF) →
      out.length = 5 * cs.length / 8 ∧ out.length ≤ cs.length) ∧
    (∀ (pre suf : List Char) (out : List Nat) (bufF blF : Nat),
      decodeCore pre 0 0 = .ok (out, bufF, blF) →
      out.length ≤ 5 * (pre ++ suf).length / 8) := by
  refine ⟨?_, ?_, ?_⟩
  · intro data hd
    rw [base32Encode_eq_spec data hd, base32EncodeSpec, List.length_map, beDigits_length]
  · intro cs out bufF blF h
    have hl := decodeCore_length cs 0 0 (by norm_num) out bufF blF h
    constructor
    · simpa using hl
    · omega
  · intro pre suf out bufF blF h
    have hl := decodeCore_length pre 0 0 (by norm_num) out bufF blF h
    simp only [List.length_append]
    omega

/-- Witness for C9 at `"zw"`: one byte out of two characters, and the
four-character encoding of two bytes. -/
theorem claim_C9_witness :
    (base32Encode [255, 0]).length = (8 * ([255, 0] : List Nat).length + 4) / 5 ∧
    ([255] : List Nat).length = 5 * (['z', 'w'] : List Char).length / 8 :=
  ⟨claim_C9.1 [255, 0] (by decide),
   (claim_C9.2.1 ['z', 'w'] [255] 1020 2 (by decide)).1⟩


/-- C5: a successfully materialized level has pairwise-distinct entry
names; a level whose prefix materializes and then repeats an already-seen
valid name fails with `duplicateName`; and the check is per level only —
the same name at different nesting depths unpacks successfully. -/
theorem claim_C5 :
    (∀ (files : List File) (seen dirname : List String) (fs fs' : FS),
      unpackDir files seen dirname fs = (fs', none) →
      (files.map File.name).Nodup ∧ ∀ n ∈ files.map File.name, n ∉ seen) ∧
    (∀ (pre : List File) (f : File) (post : List File) (seen dirname : List String)
        (fs fs' : FS),
      unpackDir pre seen dirname fs = (fs', none) →
      validName f.name = true →
      f.name ∈ pre.map File.name ++ seen →
      unpackDir (pre ++ f :: post) seen dirname fs = (fs', some .duplicateName)) ∧
    (unpackDir [File.directory "d" [File.regular "a" [1]], File.regular "a" [2]]
      [] ["o"] []).2 = none := by
  refine ⟨?_, ?_, ?_⟩
  · intro files seen dirname fs fs' h
    exact unpackDir_ok_nodup (sizeOf files) files seen dirname fs fs' le_rfl h
  · intro pre f post seen dirname fs fs' hpre hvn hmem
    have hmem' : f.name ∈ (pre.map File.name).reverse ++ seen := by
      rcases List.mem_append.mp hmem with h | h
      · exact List.mem_append_left _ (List.mem_reverse.mpr h)
      · exact List.mem_append_right _ h
    rw [unpackDir_append pre (f :: post) seen dirname fs, hpre]
    show unpackDir (f :: post) ((pre.map File.name).reverse ++ seen) dirname fs' =
      (fs', some UnpackError.duplicateName)
    rw [unpackDir.eq_def]
    simp only
    rw [if_neg (not_not_intro hvn), if_pos hmem']
  · simp [unpackDir, fsExists, File.name,
      show validName "a" = true from by decide, show validName "d" = true from by decide]

/-- Witness for C5: two entries named `"a"` in one level stop with
`duplicateName` right after the first was written. -/
theorem claim_C5_witness :
    unpackDir [File.regular "a" [1], File.regular "a" [2]] [] ["o"] [] =
      ([(["o", "a"], FSNode.file [1] 0o666)], some .duplicateName) :=
  claim_C5.2.1 [File.regular "a" [1]] (File.regular "a" [2]) [] [] ["o"] []
    [(["o", "a"], FSNode.file [1] 0o666)]
    (by simp [unpackDir, fsExists, File.name, show validName "a" = true from by decide])
    (by decide) (by decide)

/-- C6: an entry whose name fails the validity check (empty, `"."`, `".."`,
contains `/` or NUL) aborts the level with `invalidName` as soon as it is
reached, and no binding is created for that entry's path — the filesystem
state at the failure contains nothing at `dirname/<name>` unless it was
already there or an earlier sibling claimed the name. -/
theorem claim_C6 :
    (∀ (pre : List File) (f : File) (post : List File) (seen dirname : List String)
        (fs fs' : FS),
      unpackDir pre seen dirname fs = (fs', none) →
      validName f.name = false →
      (unpackDir (pre ++ f :: post) seen dirname fs = (fs', some .invalidName) ∧
        (f.name ∉ pre.map File.name → fsExists fs (dirname ++ [f.name]) = false →
          fsExists fs' (dirname ++ [f.name]) = false))) ∧
    (∀ name : String,
      (name.length = 0 ∨ name = "." ∨ name = ".." ∨ name.toList.contains '/' = true ∨
        name.toList.contains (Char.ofNat 0) = true) → validName name = false) ∧
    unpackDir [File.regular "../evil" []] [] ["o"] [] = ([], some .invalidName) := by
  refine ⟨?_, ?_, ?_⟩
  · intro pre f post seen dirname fs fs' hpre hinv
    constructor
    · rw [unpackDir_append pre (f :: post) seen dirname fs, hpre]
      show unpackDir (f :: post) ((pre.map File.name).reverse ++ seen) dirname fs' =
        (fs', some UnpackError.invalidName)
      rw [unpackDir.eq_def]
      simp only
      rw [if_pos (by simp [hinv])]
    · intro hnotin hfs
      have hfs' : ∀ b ∈ fs', b ∈ fs ∨
          ∃ n tail, n ∈ pre.map File.name ∧ b.1 = dirname ++ n :: tail := by
        intro b hb
        have hmem : b ∈ (unpackDir pre seen dirname fs).1 := by rw [hpre]; exact hb
        exact unpackDir_writes (sizeOf pre) pre seen dirname fs le_rfl b hmem
      rw [fsExists_false_iff]
      intro b hb
      rcases hfs' b hb with hbfs | ⟨n, tail, hn, hp⟩
      · exact (fsExists_false_iff fs _).mp hfs b hbfs
      · rw [hp]
        intro heq
        have h2 := List.append_cancel_left heq
        have h3 : n = f.name := ((List.cons.injEq _ _ _ _).mp h2).1
        subst h3
        exact hnotin hn
  · intro name h
    rcases h with h | h | h | h | h
    · simp [validName, h]
    · simp [validName, h]
    · simp [validName, h]
    · have hm : '/' ∈ name.data := by
        simpa [List.contains_iff_exists_mem_beq, eq_comm] using h
      simp [validName, hm]
    · have hm : Char.ofNat 0 ∈ name.data := by
        simpa [List.contains_iff_exists_mem_beq, eq_comm] using h
      simp [validName, hm]
  · simp [unpackDir, File.name, show validName "../evil" = false from by decide]

/-- Witness for C6: `"../evil"` after a successful sibling fails with
`invalidName` and writes nothing for itself. -/
theorem claim_C6_witness :
    unpackDir [File.regular "ok" [], File.regular "../evil" []] [] ["o"] [] =
      ([(["o", "ok"], FSNode.file [] 0o666)], some .invalidName) ∧
    fsExists [(["o", "ok"], FSNode.file [] 0o666)] ["o", "../evil"] = false :=
  have h := claim_C6.1 [File.regular "ok" []] (File.regular "../evil" []) [] [] ["o"] []
    [(["o", "ok"], FSNode.file [] 0o666)]
    (by simp [unpackDir, fsExists, File.name, show validName "ok" = true from by decide])
    (by decide)
  ⟨h.1, h.2 (by decide) rfl⟩

/-- C10: a `Regular` entry is created with mode `0666` and an `Executable`
entry with mode `0777` (so group and other execute bits are granted, not
only owner-execute); creation is exclusive — a pre-existing path makes the
entry fail with `alreadyExists` and existing bindings are never replaced. -/
theorem claim_C10 :
    (∀ (name : String) (content : List Nat) (rest : List File) (seen dirname : List String)
        (fs : FS),
      validName name = true → name ∉ seen → fsExists fs (dirname ++ [name]) = false →
      (unpackDir (File.regular name content :: rest) seen dirname fs =
        unpackDir rest (name :: seen) dirname
          ((dirname ++ [name], FSNode.file content 0o666) :: fs) ∧
      unpackDir (File.executable name content :: rest) seen dirname fs =
        unpackDir rest (name :: seen) dirname
          ((dirname ++ [name], FSNode.file content 0o777) :: fs))) ∧
    ((0o777 : Nat) &&& 0o077 = 0o077) ∧
    (∀ (f : File) (rest : List File) (seen dirname : List String) (fs : FS),
      validName f.name = true → f.name ∉ seen → fsExists fs (dirname ++ [f.name]) = true →
      unpackDir (f :: rest) seen dirname fs = (fs, some .alreadyExists)) ∧
    (∀ (files : List File) (seen dirname : List String) (fs : FS) (b : List String × FSNode),
      b ∈ fs → b ∈ (unpackDir files seen dirname fs).1) := by
  refine ⟨?_, by decide, ?_, ?_⟩
  · intro name content rest seen dirname fs hvn hns hne
    constructor
    · rw [unpackDir.eq_def]
      simp only [File.name]
      rw [if_neg (not_not_intro hvn), if_neg hns, if_neg (by simp [hne])]
    · rw [unpackDir.eq_def]
      simp only [File.name]
      rw [if_neg (not_not_intro hvn), if_neg hns, if_neg (by simp [hne])]
  · intro f rest seen dirname fs hvn hns hex
    rw [unpackDir.eq_def]
    simp only
    rw [if_neg (not_not_intro hvn), if_neg hns, if_pos hex]
  · intro files seen dirname fs b hb
    exact unpackDir_mono (sizeOf files) files seen dirname fs le_rfl b hb

/-- Witness for C10: an executable is written with mode `0777`, and a
pre-existing path is never overwritten. -/
theorem claim_C10_witness :
    unpackDir [File.executable "x" [5]] [] ["o"] [] =
      unpackDir [] ["x"] ["o"] [(["o", "x"], FSNode.file [5] 0o777)] ∧
    unpackDir [File.regular "x" [5]] [] ["o"] [(["o", "x"], FSNode.dir)] =
      ([(["o", "x"], FSNode.dir)], some .alreadyExists) :=
  ⟨(claim_C10.1 "x" [5] [] [] ["o"] [] (by decide) (by decide) rfl).2,
   claim_C10.2.2.1 (File.regular "x" [5]) [] [] ["o"] [(["o", "x"], FSNode.dir)]
     (by decide) (by decide) (by decide)⟩

end Sandstorm
